import Mathlib

/-!
Shallow embedding of the nom-based JSON parser in `src/main.rs` of the
`nom-json-parser` repository, together with proofs checking the
specification's claims against it.

The input is modelled as a `List Char` (the remaining unconsumed slice).
A nom `IResult<&str, T>` is modelled by `PResult T`:
* `.ok rest val` models `Ok((rest, val))`;
* `.error` models `Err(Err::Error(_))` (the recoverable error produced by
  `tag`, `digit1`, `eof`, …; the program never constructs `Err::Failure`);
* `.panic` models a Rust panic (the `unwrap()` in `json_number`);
* `.fuelOut` is an artifact of the fuel-indexed embedding of the mutual
  recursion; it is proved unreachable for the fuel used by the top-level
  definitions.
-/

namespace NomJson

abbrev Input := List Char

/-- The `Json` value enum of the source (`enum Json`), with `u64` payloads
modelled as `Nat` (overflow is handled before a `number` is built, exactly
as in the source where `parse::<u64>()` decides it) and `String` payloads
modelled as `List Char`. -/
inductive Json where
  | null : Json
  | bool (b : Bool) : Json
  | number (n : Nat) : Json
  | string (s : List Char) : Json
  | array (items : List Json) : Json
  | object (members : List (List Char × Json)) : Json
deriving Repr

/-- Result of running a parser on an input slice; see the module comment. -/
inductive PResult (α : Type) where
  | ok (rest : Input) (val : α) : PResult α
  | error : PResult α
  | panic : PResult α
  | fuelOut : PResult α
deriving Repr, DecidableEq

/-- Sequencing of parser results: models running one nom parser and, on
success, continuing with the rest of the input (`delimited`, `tuple`,
`map` are all built from this). `error`, `panic` and the fuel artifact
pass through. -/
def pbind {α β : Type} (r : PResult α) (k : Input → α → PResult β) : PResult β :=
  match r with
  | .ok rest v => k rest v
  | .error => .error
  | .panic => .panic
  | .fuelOut => .fuelOut

/-- nom's `alt`: on a recoverable `error` try the next alternative, any
other outcome is returned as is. -/
def palt {α : Type} (r : PResult α) (k : Unit → PResult α) : PResult α :=
  match r with
  | .error => k ()
  | r => r

/-- nom's `map`. -/
def pmap {α β : Type} (f : α → β) (r : PResult α) : PResult β :=
  pbind r (fun rest v => .ok rest (f v))

/-- The step pattern of nom's `separated_list0` loop: on success continue,
on a recoverable `error` return the fallback (the list collected so far),
and propagate everything else. -/
def pstep {α β : Type} (r : PResult α) (fallback : PResult β)
    (k : Input → α → PResult β) : PResult β :=
  match r with
  | .ok rest v => k rest v
  | .error => fallback
  | .panic => .panic
  | .fuelOut => .fuelOut

/-- The characters accepted by nom's `multispace0`: space, tab, newline,
carriage return. -/
def isWsChar (c : Char) : Bool :=
  c == ' ' || c == '\t' || c == '\n' || c == '\r'

/-- ASCII decimal digit, as recognized by nom's `digit1`. -/
def isDigitChar (c : Char) : Bool :=
  '0' ≤ c && c ≤ '9'

/-- nom's `tag(t)`: succeeds iff `t` is a literal prefix of the input. -/
def tagP (t : Input) (input : Input) : PResult Input :=
  if t.isPrefixOf input then .ok (input.drop t.length) t else .error

/-- nom's `digit1`: one or more ASCII digits. -/
def digit1 (input : Input) : PResult Input :=
  let ds := input.takeWhile isDigitChar
  if ds.isEmpty then .error else .ok (input.dropWhile isDigitChar) ds

/-- nom's `take_till(p)` (complete version): consume up to, not including,
the first character satisfying `p`; never fails. -/
def takeTill (p : Char → Bool) (input : Input) : PResult Input :=
  .ok (input.dropWhile (fun c => !p c)) (input.takeWhile (fun c => !p c))

/-- nom's `multispace0`: zero or more whitespace characters; never fails. -/
def multispace0 (input : Input) : PResult Input :=
  .ok (input.dropWhile isWsChar) (input.takeWhile isWsChar)

/-- nom's `eof`: succeeds exactly on empty remaining input. -/
def eofP (input : Input) : PResult Input :=
  if input.isEmpty then .ok input input else .error

/-- `fn json_null`: `map(tag("null"), |_| Json::Null)`. -/
def json_null (input : Input) : PResult Json :=
  pmap (fun _ => Json.null) (tagP ("null".toList) input)

/-- `fn json_bool`: `alt((map(tag("true"), ..true..), map(tag("false"), ..false..)))`. -/
def json_bool (input : Input) : PResult Json :=
  palt (pmap (fun _ => Json.bool true) (tagP ("true".toList) input))
    (fun _ => pmap (fun _ => Json.bool false) (tagP ("false".toList) input))

/-- `u64::MAX`. -/
def u64Max : Nat := 2 ^ 64 - 1

/-- Numeric value of a digit run, exactly as `str::parse::<u64>` computes
it (most significant digit first). -/
def digitsVal (ds : List Char) : Nat :=
  ds.foldl (fun a c => 10 * a + (c.toNat - 48)) 0

/-- `fn json_number`: `map(digit1, |s| Json::Number(s.parse().unwrap()))`.
`parse::<u64>()` on a nonempty digit run returns `Err` exactly when the
value overflows `u64`, and the `unwrap()` then panics. -/
def json_number (input : Input) : PResult Json :=
  pbind (digit1 input) (fun rest ds =>
    if digitsVal ds ≤ u64Max then .ok rest (Json.number (digitsVal ds))
    else .panic)

/-- `fn string_literal`: `delimited(tag("\""), map(take_till(|c| c == '"'), into), tag("\""))`. -/
def string_literal (input : Input) : PResult (List Char) :=
  pbind (tagP ['"'] input) (fun i1 _ =>
    pbind (takeTill (fun c => c == '"') i1) (fun i2 s =>
      pbind (tagP ['"'] i2) (fun i3 _ => .ok i3 s)))

/-- `fn json_string`: `map(string_literal, Json::String)`. -/
def json_string (input : Input) : PResult Json :=
  pmap Json.string (string_literal input)

/-- `fn ws`: `delimited(multispace0, inner, multispace0)`. -/
def wsP {α : Type} (inner : Input → PResult α) (input : Input) : PResult α :=
  pbind (multispace0 input) (fun i1 _ =>
    pbind (inner i1) (fun i2 v =>
      pbind (multispace0 i2) (fun i3 _ => .ok i3 v)))

/-- `ws(tag(t))`, the only use of `ws` in the source. -/
def wsTag (t : Input) : Input → PResult Input :=
  wsP (tagP t)

/-- The opening-brace token of `json_object`. -/
def braceOpen : Input := ['\x7b']

/-- The closing-brace token of `json_object`. -/
def braceClose : Input := ['\x7d']

mutual

/-- `fn json_value`: `map(alt((json_null, json_bool, json_number, json_string,
json_array, json_object)), |json| json)`, fuel-indexed. -/
def jsonValueF : Nat → Input → PResult Json
  | 0, _ => .fuelOut
  | n + 1, input =>
    palt (json_null input) (fun _ =>
    palt (json_bool input) (fun _ =>
    palt (json_number input) (fun _ =>
    palt (json_string input) (fun _ =>
    palt (jsonArrayF n input) (fun _ =>
    jsonObjectF n input)))))

/-- `fn json_array`: `map(delimited(ws(tag("[")), separated_list0(ws(tag(",")),
json_value), ws(tag("]"))), Json::Array)`, fuel-indexed. -/
def jsonArrayF : Nat → Input → PResult Json
  | 0, _ => .fuelOut
  | n + 1, input =>
    pbind (wsTag ['['] input) (fun i1 _ =>
    pbind (sepValuesF n i1) (fun i2 vs =>
    pbind (wsTag [']'] i2) (fun i3 _ => .ok i3 (Json.array vs))))

/-- `fn json_object`: `map(delimited(ws(tag("{")), separated_list0(ws(tag(",")),
tuple((string_literal, ws(tag(":")), json_value))), ws(tag("}"))), ..collect..)`,
fuel-indexed. -/
def jsonObjectF : Nat → Input → PResult Json
  | 0, _ => .fuelOut
  | n + 1, input =>
    pbind (wsTag braceOpen input) (fun i1 _ =>
    pbind (sepMembersF n i1) (fun i2 ms =>
    pbind (wsTag braceClose i2) (fun i3 _ => .ok i3 (Json.object ms))))

/-- `separated_list0(ws(tag(",")), json_value)` (nom 7): if the first item
fails recoverably the list is empty; otherwise enter the separator loop. -/
def sepValuesF : Nat → Input → PResult (List Json)
  | 0, _ => .fuelOut
  | n + 1, input =>
    pstep (jsonValueF n input) (.ok input [])
      (fun i1 v => sepValuesTailF n i1 [v])

/-- The separator loop of `separated_list0(ws(tag(",")), json_value)`:
try the separator (rewinding on failure), apply nom's infinite-loop check
(the separator must consume input), then try the next item (rewinding to
before the separator on recoverable failure). -/
def sepValuesTailF : Nat → Input → List Json → PResult (List Json)
  | 0, _, _ => .fuelOut
  | n + 1, input, acc =>
    pstep (wsTag [','] input) (.ok input acc) (fun i1 _ =>
      if i1.length = input.length then .error
      else
        pstep (jsonValueF n i1) (.ok input acc)
          (fun i2 v => sepValuesTailF n i2 (acc ++ [v])))

/-- One object member: `tuple((string_literal, ws(tag(":")), json_value))`,
already projected to the `(key, value)` pair (the source drops the colon in
its `map`). -/
def objMemberF : Nat → Input → PResult (List Char × Json)
  | 0, _ => .fuelOut
  | n + 1, input =>
    pbind (string_literal input) (fun i1 k =>
    pbind (wsTag [':'] i1) (fun i2 _ =>
    pbind (jsonValueF n i2) (fun i3 v => .ok i3 (k, v))))

/-- `separated_list0(ws(tag(",")), tuple((string_literal, ws(tag(":")), json_value)))`. -/
def sepMembersF : Nat → Input → PResult (List (List Char × Json))
  | 0, _ => .fuelOut
  | n + 1, input =>
    pstep (objMemberF n input) (.ok input [])
      (fun i1 m => sepMembersTailF n i1 [m])

/-- Separator loop for object members; same shape as `sepValuesTailF`. -/
def sepMembersTailF : Nat → Input → List (List Char × Json) → PResult (List (List Char × Json))
  | 0, _, _ => .fuelOut
  | n + 1, input, acc =>
    pstep (wsTag [','] input) (.ok input acc) (fun i1 _ =>
      if i1.length = input.length then .error
      else
        pstep (objMemberF n i1) (.ok input acc)
          (fun i2 m => sepMembersTailF n i2 (acc ++ [m])))

end

/-- `fn json_value` on a given input, with fuel that is proved sufficient. -/
def json_value (input : Input) : PResult Json :=
  jsonValueF (4 * input.length + 2) input

/-- `fn json_array` on a given input, with fuel that is proved sufficient. -/
def json_array (input : Input) : PResult Json :=
  jsonArrayF (4 * input.length + 1) input

/-- `fn json_object` on a given input, with fuel that is proved sufficient. -/
def json_object (input : Input) : PResult Json :=
  jsonObjectF (4 * input.length + 1) input

/-- The element-list parser of `json_array`, with sufficient fuel. -/
def separated_values (input : Input) : PResult (List Json) :=
  sepValuesF (4 * input.length + 4) input

/-- The member-list parser of `json_object`, with sufficient fuel. -/
def object_members (input : Input) : PResult (List (List Char × Json)) :=
  sepMembersF (4 * input.length + 2) input

/-- `fn json`: `map(tuple((json_value, eof)), |(json, _)| json)` — the
document driver. -/
def json (input : Input) : PResult Json :=
  pbind (json_value input) (fun rest v =>
    pbind (eofP rest) (fun r2 _ => .ok r2 v))

/-- A parser outcome is a success. -/
def isOkR {α : Type} : PResult α → Prop
  | .ok _ _ => True
  | _ => False

/-- The six recognizers tried by the value dispatcher, in source order. -/
def recognizers : List (Input → PResult Json) :=
  [json_null, json_bool, json_number, json_string, json_array, json_object]

/-- First character of the input after stripping leading whitespace; the
"lead token" position that decides which dispatcher branch can apply. -/
def leadChar (input : Input) : Option Char :=
  (input.dropWhile isWsChar).head?

/-- Whether a value is a composite (array or object) — the roots whose
grammar contains the whitespace-wrapped brackets. -/
def Json.isComposite : Json → Bool
  | .array _ => true
  | .object _ => true
  | _ => false

end NomJson

namespace NomJson

@[simp] theorem pbind_ok {α β : Type} (r : Input) (v : α) (k : Input → α → PResult β) :
    pbind (.ok r v) k = k r v := rfl

@[simp] theorem pbind_error {α β : Type} (k : Input → α → PResult β) :
    pbind .error k = .error := rfl

@[simp] theorem pbind_panic {α β : Type} (k : Input → α → PResult β) :
    pbind .panic k = .panic := rfl

@[simp] theorem pbind_fuelOut {α β : Type} (k : Input → α → PResult β) :
    pbind .fuelOut k = .fuelOut := rfl

@[simp] theorem palt_ok {α : Type} (r : Input) (v : α) (k : Unit → PResult α) :
    palt (.ok r v) k = .ok r v := rfl

@[simp] theorem palt_error {α : Type} (k : Unit → PResult α) :
    palt .error k = k () := rfl

@[simp] theorem palt_panic {α : Type} (k : Unit → PResult α) :
    palt .panic k = .panic := rfl

@[simp] theorem palt_fuelOut {α : Type} (k : Unit → PResult α) :
    palt .fuelOut k = .fuelOut := rfl

@[simp] theorem pstep_ok {α β : Type} (r : Input) (v : α) (fb : PResult β)
    (k : Input → α → PResult β) : pstep (.ok r v) fb k = k r v := rfl

@[simp] theorem pstep_error {α β : Type} (fb : PResult β) (k : Input → α → PResult β) :
    pstep .error fb k = fb := rfl

@[simp] theorem pstep_panic {α β : Type} (fb : PResult β) (k : Input → α → PResult β) :
    pstep .panic fb k = .panic := rfl

@[simp] theorem pstep_fuelOut {α β : Type} (fb : PResult β) (k : Input → α → PResult β) :
    pstep .fuelOut fb k = .fuelOut := rfl

theorem jsonValueF_zero (i : Input) : jsonValueF 0 i = .fuelOut := rfl

theorem jsonArrayF_zero (i : Input) : jsonArrayF 0 i = .fuelOut := rfl

theorem jsonObjectF_zero (i : Input) : jsonObjectF 0 i = .fuelOut := rfl

theorem sepValuesF_zero (i : Input) : sepValuesF 0 i = .fuelOut := rfl

theorem sepValuesTailF_zero (i : Input) (acc : List Json) :
    sepValuesTailF 0 i acc = .fuelOut := rfl

theorem objMemberF_zero (i : Input) : objMemberF 0 i = .fuelOut := rfl

theorem sepMembersF_zero (i : Input) : sepMembersF 0 i = .fuelOut := rfl

theorem sepMembersTailF_zero (i : Input) (acc : List (List Char × Json)) :
    sepMembersTailF 0 i acc = .fuelOut := rfl

theorem jsonValueF_succ (n : Nat) (i : Input) : jsonValueF (n + 1) i =
    palt (json_null i) (fun _ =>
    palt (json_bool i) (fun _ =>
    palt (json_number i) (fun _ =>
    palt (json_string i) (fun _ =>
    palt (jsonArrayF n i) (fun _ =>
    jsonObjectF n i))))) := rfl

theorem jsonArrayF_succ (n : Nat) (i : Input) : jsonArrayF (n + 1) i =
    pbind (wsTag ['['] i) (fun i1 _ =>
    pbind (sepValuesF n i1) (fun i2 vs =>
    pbind (wsTag [']'] i2) (fun i3 _ => .ok i3 (Json.array vs)))) := rfl

theorem jsonObjectF_succ (n : Nat) (i : Input) : jsonObjectF (n + 1) i =
    pbind (wsTag braceOpen i) (fun i1 _ =>
    pbind (sepMembersF n i1) (fun i2 ms =>
    pbind (wsTag braceClose i2) (fun i3 _ => .ok i3 (Json.object ms)))) := rfl

theorem sepValuesF_succ (n : Nat) (i : Input) : sepValuesF (n + 1) i =
    pstep (jsonValueF n i) (.ok i [])
      (fun i1 v => sepValuesTailF n i1 [v]) := rfl

theorem sepValuesTailF_succ (n : Nat) (i : Input) (acc : List Json) :
    sepValuesTailF (n + 1) i acc =
    pstep (wsTag [','] i) (.ok i acc) (fun i1 _ =>
      if i1.length = i.length then .error
      else
        pstep (jsonValueF n i1) (.ok i acc)
          (fun i2 v => sepValuesTailF n i2 (acc ++ [v]))) := rfl

theorem objMemberF_succ (n : Nat) (i : Input) : objMemberF (n + 1) i =
    pbind (string_literal i) (fun i1 k =>
    pbind (wsTag [':'] i1) (fun i2 _ =>
    pbind (jsonValueF n i2) (fun i3 v => .ok i3 (k, v)))) := rfl

theorem sepMembersF_succ (n : Nat) (i : Input) : sepMembersF (n + 1) i =
    pstep (objMemberF n i) (.ok i [])
      (fun i1 m => sepMembersTailF n i1 [m]) := rfl

theorem sepMembersTailF_succ (n : Nat) (i : Input) (acc : List (List Char × Json)) :
    sepMembersTailF (n + 1) i acc =
    pstep (wsTag [','] i) (.ok i acc) (fun i1 _ =>
      if i1.length = i.length then .error
      else
        pstep (objMemberF n i1) (.ok i acc)
          (fun i2 m => sepMembersTailF n i2 (acc ++ [m]))) := rfl

theorem dropWhile_idem (p : Char → Bool) (l : Input) :
    (l.dropWhile p).dropWhile p = l.dropWhile p := by
  induction l with
  | nil => rfl
  | cons a t ih =>
    by_cases h : p a = true
    · simp [List.dropWhile_cons, h, ih]
    · simp only [Bool.not_eq_true] at h
      simp [List.dropWhile_cons, h]

theorem dropWhile_cons_false {p : Char → Bool} {a : Char} {l : Input} (h : p a = false) :
    (a :: l).dropWhile p = a :: l := by
  simp [List.dropWhile_cons, h]

theorem takeWhile_cons_false {p : Char → Bool} {a : Char} {l : Input} (h : p a = false) :
    (a :: l).takeWhile p = [] := by
  simp [List.takeWhile_cons, h]

theorem dropWhile_head_false {p : Char → Bool} {l : Input} {a : Char}
    (h : (l.dropWhile p).head? = some a) : p a = false := by
  induction l with
  | nil => simp at h
  | cons b t ih =>
    by_cases hb : p b = true
    · rw [List.dropWhile_cons, if_pos hb] at h
      exact ih h
    · simp only [Bool.not_eq_true] at hb
      rw [List.dropWhile_cons, if_neg (by simp [hb])] at h
      simp only [List.head?_cons, Option.some.injEq] at h
      exact h ▸ hb

theorem takeWhile_append_of_all {p : Char → Bool} {xs : Input} (ys : Input)
    (h : ∀ c ∈ xs, p c = true) : (xs ++ ys).takeWhile p = xs ++ ys.takeWhile p := by
  induction xs with
  | nil => rw [List.nil_append, List.nil_append]
  | cons a t ih =>
    have hmem : a ∈ a :: t := List.mem_cons_self a t
    have hsub : ∀ c ∈ t, p c = true := fun c hc => h c (List.mem_cons_of_mem a hc)
    rw [List.cons_append, List.takeWhile_cons, h a hmem, if_pos rfl]
    rw [ih hsub, List.cons_append]

theorem dropWhile_append_of_all {p : Char → Bool} {xs : Input} (ys : Input)
    (h : ∀ c ∈ xs, p c = true) : (xs ++ ys).dropWhile p = ys.dropWhile p := by
  induction xs with
  | nil => rw [List.nil_append]
  | cons a t ih =>
    have hsub : ∀ c ∈ t, p c = true := fun c hc => h c (List.mem_cons_of_mem a hc)
    rw [List.cons_append, List.dropWhile_cons, h a (List.mem_cons_self a t), if_pos rfl]
    exact ih hsub

theorem tagP_ok_iff {t i r : Input} {v : Input} :
    tagP t i = .ok r v ↔ v = t ∧ i = t ++ r := by
  unfold tagP
  by_cases h : t.isPrefixOf i
  · rw [if_pos h]
    rw [List.isPrefixOf_iff_prefix] at h
    obtain ⟨u, rfl⟩ := h
    rw [List.drop_left]
    constructor
    · intro he
      cases he
      exact ⟨rfl, rfl⟩
    · rintro ⟨rfl, he⟩
      have : u = r := by
        have := List.append_cancel_left he
        exact this
      rw [this]
  · rw [if_neg h]
    constructor
    · intro he
      cases he
    · rintro ⟨rfl, rfl⟩
      exact absurd (List.isPrefixOf_iff_prefix.mpr (List.prefix_append v r)) h

theorem tagP_self (t r : Input) : tagP t (t ++ r) = .ok r t :=
  tagP_ok_iff.mpr ⟨rfl, rfl⟩

theorem tagP_error_head {c : Char} {t i : Input} (h : i.head? ≠ some c) :
    tagP (c :: t) i = .error := by
  cases i with
  | nil => rfl
  | cons a l =>
    simp only [List.head?_cons, ne_eq, Option.some.injEq] at h
    have : (c == a) = false := by
      simp only [beq_eq_false_iff_ne, ne_eq]
      exact fun he => h he.symm
    unfold tagP
    rw [if_neg]
    simp [List.isPrefixOf, this]

theorem tagP_length {t i r v : Input} (h : tagP t i = .ok r v) :
    i.length = t.length + r.length := by
  obtain ⟨rfl, rfl⟩ := tagP_ok_iff.mp h
  simp

end NomJson

namespace NomJson

@[simp] theorem pmap_ok {α β : Type} (f : α → β) (r : Input) (v : α) :
    pmap f (.ok r v) = .ok r (f v) := rfl

@[simp] theorem pmap_error {α β : Type} (f : α → β) : pmap f (.error : PResult α) = .error := rfl

@[simp] theorem pmap_panic {α β : Type} (f : α → β) : pmap f (.panic : PResult α) = .panic := rfl

theorem tagP_cases (t i : Input) : (∃ r, tagP t i = .ok r t) ∨ tagP t i = .error := by
  unfold tagP
  by_cases h : t.isPrefixOf i
  · exact Or.inl ⟨i.drop t.length, by rw [if_pos h]⟩
  · exact Or.inr (by rw [if_neg h])

theorem wsTag_eq (t i : Input) : wsTag t i =
    pbind (tagP t (i.dropWhile isWsChar)) (fun j v => .ok (j.dropWhile isWsChar) v) := by
  simp only [wsTag, wsP, multispace0, pbind_ok]

theorem wsTag_ok_iff {t i r v : Input} : wsTag t i = .ok r v ↔
    ∃ j, tagP t (i.dropWhile isWsChar) = .ok j v ∧ r = j.dropWhile isWsChar := by
  rw [wsTag_eq]
  cases h : tagP t (i.dropWhile isWsChar) with
  | ok j w =>
    simp only [pbind_ok, PResult.ok.injEq]
    constructor
    · rintro ⟨rfl, rfl⟩
      exact ⟨j, ⟨rfl, rfl⟩, rfl⟩
    · rintro ⟨j', ⟨rfl, rfl⟩, rfl⟩
      exact ⟨rfl, rfl⟩
  | error => simp
  | panic => simp
  | fuelOut => simp

theorem wsTag_error_iff {t i : Input} :
    wsTag t i = .error ↔ tagP t (i.dropWhile isWsChar) = .error := by
  rw [wsTag_eq]
  cases h : tagP t (i.dropWhile isWsChar) <;> simp

theorem wsTag_cases (t i : Input) : (∃ r, wsTag t i = .ok r t) ∨ wsTag t i = .error := by
  rcases tagP_cases t (i.dropWhile isWsChar) with ⟨j, hj⟩ | hj
  · exact Or.inl ⟨j.dropWhile isWsChar, wsTag_ok_iff.mpr ⟨j, hj, rfl⟩⟩
  · exact Or.inr (wsTag_error_iff.mpr hj)

theorem wsTag_val {t i r v : Input} (h : wsTag t i = .ok r v) : v = t := by
  obtain ⟨j, hj, _⟩ := wsTag_ok_iff.mp h
  exact (tagP_ok_iff.mp hj).1

theorem wsTag_stripped {t i r v : Input} (h : wsTag t i = .ok r v) :
    r.dropWhile isWsChar = r := by
  obtain ⟨j, _, rfl⟩ := wsTag_ok_iff.mp h
  exact dropWhile_idem _ _

theorem wsTag_length {t i r v : Input} (h : wsTag t i = .ok r v) :
    r.length + t.length ≤ i.length := by
  obtain ⟨j, hj, rfl⟩ := wsTag_ok_iff.mp h
  have h1 : (i.dropWhile isWsChar).length = t.length + j.length := tagP_length hj
  have h2 : (i.dropWhile isWsChar).length ≤ i.length :=
    (List.dropWhile_suffix isWsChar).sublist.length_le
  have h3 : (j.dropWhile isWsChar).length ≤ j.length :=
    (List.dropWhile_suffix isWsChar).sublist.length_le
  omega

theorem wsTag_lt {t i r v : Input} (ht : t ≠ []) (h : wsTag t i = .ok r v) :
    r.length < i.length := by
  have := wsTag_length h
  have : 1 ≤ t.length := by
    cases t with
    | nil => exact absurd rfl ht
    | cons a l => simp
  have := wsTag_length h
  omega

theorem wsTag_dropWhile (t i : Input) : wsTag t (i.dropWhile isWsChar) = wsTag t i := by
  rw [wsTag_eq, wsTag_eq, dropWhile_idem]

theorem wsTag_error_head {c : Char} {t i : Input}
    (h : (i.dropWhile isWsChar).head? ≠ some c) : wsTag (c :: t) i = .error :=
  wsTag_error_iff.mpr (tagP_error_head h)

theorem wsTag_ok_lead {c : Char} {t i r v : Input} (h : wsTag (c :: t) i = .ok r v) :
    (i.dropWhile isWsChar).head? = some c := by
  obtain ⟨j, hj, _⟩ := wsTag_ok_iff.mp h
  obtain ⟨_, hi⟩ := tagP_ok_iff.mp hj
  rw [hi]
  rfl

theorem string_literal_ok_iff {i r s : Input} : string_literal i = .ok r s ↔
    i = '"' :: (s ++ '"' :: r) ∧ ∀ c ∈ s, (c == '"') = false := by
  constructor
  · intro h
    unfold string_literal at h
    cases h1 : tagP ['"'] i with
    | ok j v =>
      rw [h1] at h
      obtain ⟨rfl, hi⟩ := tagP_ok_iff.mp h1
      simp only [pbind_ok, takeTill] at h
      cases h2 : tagP ['"'] (j.dropWhile (fun c => !(c == '"'))) with
      | ok j2 v2 =>
        rw [h2] at h
        simp only [pbind_ok, PResult.ok.injEq] at h
        obtain ⟨rfl, rfl⟩ := h
        obtain ⟨rfl, hj⟩ := tagP_ok_iff.mp h2
        constructor
        · rw [hi]
          have hsplit : j = j.takeWhile (fun c => !(c == '"')) ++ j.dropWhile (fun c => !(c == '"')) :=
            (List.takeWhile_append_dropWhile _ _).symm
          rw [hj] at hsplit
          conv_lhs => rw [hsplit]
          rfl
        · intro c hc
          have := List.mem_takeWhile_imp hc
          simpa using this
      | error => rw [h2] at h; cases h
      | panic => rw [h2] at h; cases h
      | fuelOut => rw [h2] at h; cases h
    | error => rw [h1] at h; cases h
    | panic => rw [h1] at h; cases h
    | fuelOut => rw [h1] at h; cases h
  · rintro ⟨rfl, hs⟩
    unfold string_literal
    have h1 : tagP ['"'] ('"' :: (s ++ '"' :: r)) = .ok (s ++ '"' :: r) ['"'] :=
      tagP_self ['"'] (s ++ '"' :: r)
    rw [h1]
    simp only [pbind_ok, takeTill]
    have hall : ∀ c ∈ s, (fun c => !(c == '"')) c = true := by
      intro c hc
      simp [hs c hc]
    have hq : (fun c => !(c == '"')) '"' = false := by simp
    have htake : (s ++ '"' :: r).takeWhile (fun c => !(c == '"')) = s := by
      rw [takeWhile_append_of_all _ hall, takeWhile_cons_false hq, List.append_nil]
    have hdrop : (s ++ '"' :: r).dropWhile (fun c => !(c == '"')) = '"' :: r := by
      rw [dropWhile_append_of_all _ hall, dropWhile_cons_false hq]
    rw [htake, hdrop]
    have h2 : tagP ['"'] ('"' :: r) = .ok r ['"'] := tagP_self ['"'] r
    rw [h2]
    rfl

theorem string_literal_cases (i : Input) :
    (∃ r s, string_literal i = .ok r s) ∨ string_literal i = .error := by
  unfold string_literal
  rcases tagP_cases ['"'] i with ⟨j, hj⟩ | hj
  · rw [hj]
    simp only [pbind_ok, takeTill]
    rcases tagP_cases ['"'] (j.dropWhile (fun c => !(c == '"'))) with ⟨j2, hj2⟩ | hj2
    · rw [hj2]
      exact Or.inl ⟨j2, _, rfl⟩
    · rw [hj2]
      exact Or.inr rfl
  · rw [hj]
    exact Or.inr rfl

theorem string_literal_length {i r s : Input} (h : string_literal i = .ok r s) :
    i.length = s.length + r.length + 2 := by
  obtain ⟨rfl, -⟩ := string_literal_ok_iff.mp h
  simp
  omega

theorem string_literal_error_head {i : Input} (h : i.head? ≠ some '"') :
    string_literal i = .error := by
  unfold string_literal
  rw [tagP_error_head h]
  rfl

theorem string_literal_ok_lead {i r s : Input} (h : string_literal i = .ok r s) :
    i.head? = some '"' := by
  obtain ⟨rfl, -⟩ := string_literal_ok_iff.mp h
  rfl

end NomJson

namespace NomJson

theorem digit1_ok_iff {i r ds : Input} : digit1 i = .ok r ds ↔
    ds = i.takeWhile isDigitChar ∧ ds ≠ [] ∧ r = i.dropWhile isDigitChar := by
  unfold digit1
  by_cases h : (i.takeWhile isDigitChar).isEmpty
  · simp only [h, if_true]
    rw [List.isEmpty_iff] at h
    constructor
    · intro he
      cases he
    · rintro ⟨rfl, hne, -⟩
      exact absurd h hne
  · simp only [h, if_false]
    rw [Bool.not_eq_true, List.isEmpty_eq_false_iff_exists_mem] at h
    constructor
    · intro he
      cases he
      refine ⟨rfl, ?_, rfl⟩
      rintro hnil
      obtain ⟨x, hx⟩ := h
      rw [hnil] at hx
      cases hx
    · rintro ⟨rfl, -, rfl⟩
      rfl

theorem digit1_cases (i : Input) : (∃ r ds, digit1 i = .ok r ds) ∨ digit1 i = .error := by
  unfold digit1
  by_cases h : (i.takeWhile isDigitChar).isEmpty
  · simp [h]
  · simp [h]

theorem digit1_error_head {i : Input} (h : ∀ c, i.head? = some c → isDigitChar c = false) :
    digit1 i = .error := by
  cases i with
  | nil => rfl
  | cons a t =>
    have ha : isDigitChar a = false := h a rfl
    unfold digit1
    rw [takeWhile_cons_false ha]
    rfl

theorem digit1_span {ds rest : Input} (hne : ds ≠ [])
    (hds : ∀ c ∈ ds, isDigitChar c = true)
    (hrest : ∀ c, rest.head? = some c → isDigitChar c = false) :
    digit1 (ds ++ rest) = .ok rest ds := by
  have htw : rest.takeWhile isDigitChar = [] := by
    cases rest with
    | nil => rfl
    | cons a t => exact takeWhile_cons_false (hrest a rfl)
  have hdw : rest.dropWhile isDigitChar = rest := by
    cases rest with
    | nil => rfl
    | cons a t => exact dropWhile_cons_false (hrest a rfl)
  rw [digit1_ok_iff]
  refine ⟨?_, hne, ?_⟩
  · rw [takeWhile_append_of_all _ hds, htw, List.append_nil]
  · rw [dropWhile_append_of_all _ hds, hdw]

theorem json_number_span {ds rest : Input} (hne : ds ≠ [])
    (hds : ∀ c ∈ ds, isDigitChar c = true)
    (hrest : ∀ c, rest.head? = some c → isDigitChar c = false)
    (hfit : digitsVal ds ≤ u64Max) :
    json_number (ds ++ rest) = .ok rest (Json.number (digitsVal ds)) := by
  unfold json_number
  rw [digit1_span hne hds hrest]
  simp [hfit]

theorem json_number_span_panic {ds rest : Input} (hne : ds ≠ [])
    (hds : ∀ c ∈ ds, isDigitChar c = true)
    (hrest : ∀ c, rest.head? = some c → isDigitChar c = false)
    (hover : u64Max < digitsVal ds) :
    json_number (ds ++ rest) = .panic := by
  unfold json_number
  rw [digit1_span hne hds hrest]
  simp only [pbind_ok]
  rw [if_neg (by omega)]

theorem json_number_error_head {i : Input}
    (h : ∀ c, i.head? = some c → isDigitChar c = false) : json_number i = .error := by
  unfold json_number
  rw [digit1_error_head h]
  rfl

theorem json_number_ok_dest {i r : Input} {v : Json} (h : json_number i = .ok r v) :
    ∃ ds, ds ≠ [] ∧ (∀ c ∈ ds, isDigitChar c = true) ∧ i = ds ++ r ∧
      v = Json.number (digitsVal ds) ∧ digitsVal ds ≤ u64Max := by
  unfold json_number at h
  cases h1 : digit1 i with
  | ok r1 ds =>
    rw [h1] at h
    simp only [pbind_ok] at h
    obtain ⟨rfl, hne, rfl⟩ := digit1_ok_iff.mp h1
    by_cases hfit : digitsVal (i.takeWhile isDigitChar) ≤ u64Max
    · rw [if_pos hfit] at h
      cases h
      refine ⟨i.takeWhile isDigitChar, hne, ?_, ?_, rfl, hfit⟩
      · intro c hc
        exact List.mem_takeWhile_imp hc
      · exact (List.takeWhile_append_dropWhile _ _).symm
    · rw [if_neg hfit] at h
      cases h
  | error => rw [h1] at h; cases h
  | panic => rw [h1] at h; cases h
  | fuelOut => rw [h1] at h; cases h

theorem json_number_cases (i : Input) :
    (∃ r v, json_number i = .ok r v) ∨ json_number i = .error ∨ json_number i = .panic := by
  unfold json_number
  rcases digit1_cases i with ⟨r, ds, hd⟩ | hd
  · rw [hd]
    simp only [pbind_ok]
    by_cases hfit : digitsVal ds ≤ u64Max
    · rw [if_pos hfit]
      exact Or.inl ⟨r, _, rfl⟩
    · rw [if_neg hfit]
      exact Or.inr (Or.inr rfl)
  · rw [hd]
    exact Or.inr (Or.inl rfl)

theorem json_null_error_head {i : Input} (h : i.head? ≠ some 'n') : json_null i = .error := by
  unfold json_null
  rw [show ("null".toList) = 'n' :: "ull".toList from rfl, tagP_error_head h]
  rfl

theorem json_null_ok_dest {i r : Input} {v : Json} (h : json_null i = .ok r v) :
    v = Json.null ∧ i = "null".toList ++ r := by
  unfold json_null at h
  cases h1 : tagP ("null".toList) i with
  | ok j w =>
    rw [h1] at h
    simp only [pmap_ok, PResult.ok.injEq] at h
    obtain ⟨rfl, rfl⟩ := h
    obtain ⟨rfl, hi⟩ := tagP_ok_iff.mp h1
    exact ⟨rfl, hi⟩
  | error => rw [h1] at h; cases h
  | panic => rw [h1] at h; cases h
  | fuelOut => rw [h1] at h; cases h

theorem json_null_cases (i : Input) :
    (∃ r v, json_null i = .ok r v) ∨ json_null i = .error := by
  unfold json_null
  rcases tagP_cases ("null".toList) i with ⟨j, hj⟩ | hj
  · rw [hj]
    exact Or.inl ⟨j, _, rfl⟩
  · rw [hj]
    exact Or.inr rfl

theorem json_bool_error_head {i : Input} (h1 : i.head? ≠ some 't')
    (h2 : i.head? ≠ some 'f') : json_bool i = .error := by
  unfold json_bool
  rw [show ("true".toList) = 't' :: "rue".toList from rfl,
    show ("false".toList) = 'f' :: "alse".toList from rfl,
    tagP_error_head h1, tagP_error_head h2]
  rfl

theorem json_bool_ok_dest {i r : Input} {v : Json} (h : json_bool i = .ok r v) :
    (v = Json.bool true ∧ i = "true".toList ++ r) ∨
    (v = Json.bool false ∧ i = "false".toList ++ r) := by
  unfold json_bool at h
  cases h1 : tagP ("true".toList) i with
  | ok j w =>
    rw [h1] at h
    simp only [pmap_ok, palt_ok, PResult.ok.injEq] at h
    obtain ⟨rfl, rfl⟩ := h
    obtain ⟨rfl, hi⟩ := tagP_ok_iff.mp h1
    exact Or.inl ⟨rfl, hi⟩
  | error =>
    rw [h1] at h
    simp only [pmap_error, palt_error] at h
    cases h2 : tagP ("false".toList) i with
    | ok j w =>
      rw [h2] at h
      simp only [pmap_ok, PResult.ok.injEq] at h
      obtain ⟨rfl, rfl⟩ := h
      obtain ⟨rfl, hi⟩ := tagP_ok_iff.mp h2
      exact Or.inr ⟨rfl, hi⟩
    | error => rw [h2] at h; cases h
    | panic => rw [h2] at h; cases h
    | fuelOut => rw [h2] at h; cases h
  | panic => rw [h1] at h; cases h
  | fuelOut => rw [h1] at h; cases h

theorem json_bool_cases (i : Input) :
    (∃ r v, json_bool i = .ok r v) ∨ json_bool i = .error := by
  unfold json_bool
  rcases tagP_cases ("true".toList) i with ⟨j, hj⟩ | hj
  · rw [hj]
    exact Or.inl ⟨j, _, rfl⟩
  · rw [hj]
    rcases tagP_cases ("false".toList) i with ⟨j2, hj2⟩ | hj2
    · rw [hj2]
      exact Or.inl ⟨j2, _, rfl⟩
    · rw [hj2]
      exact Or.inr rfl

theorem json_string_error_head {i : Input} (h : i.head? ≠ some '"') :
    json_string i = .error := by
  unfold json_string
  rw [string_literal_error_head h]
  rfl

theorem json_string_ok_dest {i r : Input} {v : Json} (h : json_string i = .ok r v) :
    ∃ s, v = Json.string s ∧ string_literal i = .ok r s := by
  unfold json_string at h
  cases h1 : string_literal i with
  | ok j s =>
    rw [h1] at h
    simp only [pmap_ok, PResult.ok.injEq] at h
    obtain ⟨rfl, rfl⟩ := h
    exact ⟨s, rfl, rfl⟩
  | error => rw [h1] at h; cases h
  | panic => rw [h1] at h; cases h
  | fuelOut => rw [h1] at h; cases h

theorem json_string_cases (i : Input) :
    (∃ r v, json_string i = .ok r v) ∨ json_string i = .error := by
  unfold json_string
  rcases string_literal_cases i with ⟨r, s, hs⟩ | hs
  · rw [hs]
    exact Or.inl ⟨r, _, rfl⟩
  · rw [hs]
    exact Or.inr rfl

end NomJson

namespace NomJson

theorem json_null_length {i r : Input} {v : Json} (h : json_null i = .ok r v) :
    r.length ≤ i.length := by
  obtain ⟨-, rfl⟩ := json_null_ok_dest h
  simp only [List.length_append]
  omega

theorem json_bool_length {i r : Input} {v : Json} (h : json_bool i = .ok r v) :
    r.length ≤ i.length := by
  rcases json_bool_ok_dest h with ⟨-, rfl⟩ | ⟨-, rfl⟩ <;>
    simp only [List.length_append] <;> omega

theorem json_number_length {i r : Input} {v : Json} (h : json_number i = .ok r v) :
    r.length ≤ i.length := by
  obtain ⟨ds, -, -, rfl, -, -⟩ := json_number_ok_dest h
  simp only [List.length_append]
  omega

theorem json_string_length {i r : Input} {v : Json} (h : json_string i = .ok r v) :
    r.length ≤ i.length := by
  obtain ⟨s, -, hs⟩ := json_string_ok_dest h
  have := string_literal_length hs
  omega

theorem shrinkAll : ∀ n : Nat,
    (∀ i r v, jsonValueF n i = .ok r v → r.length ≤ i.length) ∧
    (∀ i r v, jsonArrayF n i = .ok r v → r.length ≤ i.length) ∧
    (∀ i r v, jsonObjectF n i = .ok r v → r.length ≤ i.length) ∧
    (∀ i r vs, sepValuesF n i = .ok r vs → r.length ≤ i.length) ∧
    (∀ i acc r vs, sepValuesTailF n i acc = .ok r vs → r.length ≤ i.length) ∧
    (∀ i r m, objMemberF n i = .ok r m → r.length ≤ i.length) ∧
    (∀ i r ms, sepMembersF n i = .ok r ms → r.length ≤ i.length) ∧
    (∀ i acc r ms, sepMembersTailF n i acc = .ok r ms → r.length ≤ i.length) := by
  intro n
  induction n with
  | zero =>
    refine ⟨?_, ?_, ?_, ?_, ?_, ?_, ?_, ?_⟩
    · intro i r v h
      rw [jsonValueF_zero] at h
      cases h
    · intro i r v h
      rw [jsonArrayF_zero] at h
      cases h
    · intro i r v h
      rw [jsonObjectF_zero] at h
      cases h
    · intro i r vs h
      rw [sepValuesF_zero] at h
      cases h
    · intro i acc r vs h
      rw [sepValuesTailF_zero] at h
      cases h
    · intro i r m h
      rw [objMemberF_zero] at h
      cases h
    · intro i r ms h
      rw [sepMembersF_zero] at h
      cases h
    · intro i acc r ms h
      rw [sepMembersTailF_zero] at h
      cases h
  | succ n ih =>
    obtain ⟨ihV, ihA, ihO, ihS, ihT, ihB, ihM, ihN⟩ := ih
    have hV : ∀ i r v, jsonValueF (n + 1) i = .ok r v → r.length ≤ i.length := by
      intro i r v h
      rw [jsonValueF_succ] at h
      rcases json_null_cases i with ⟨r1, v1, h1⟩ | h1 <;> rw [h1] at h
      · simp only [palt_ok] at h
        injection h with e1 e2
        subst e1
        exact json_null_length h1
      · simp only [palt_error] at h
        rcases json_bool_cases i with ⟨r1, v1, h2⟩ | h2 <;> rw [h2] at h
        · simp only [palt_ok] at h
          injection h with e1 e2
          subst e1
          exact json_bool_length h2
        · simp only [palt_error] at h
          rcases json_number_cases i with ⟨r1, v1, h3⟩ | h3 | h3 <;> rw [h3] at h
          · simp only [palt_ok] at h
            injection h with e1 e2
            subst e1
            exact json_number_length h3
          · simp only [palt_error] at h
            rcases json_string_cases i with ⟨r1, v1, h4⟩ | h4 <;> rw [h4] at h
            · simp only [palt_ok] at h
              injection h with e1 e2
              subst e1
              exact json_string_length h4
            · simp only [palt_error] at h
              cases h5 : jsonArrayF n i with
              | ok r5 v5 =>
                rw [h5] at h
                simp only [palt_ok] at h
                injection h with e1 e2
                subst e1
                exact ihA _ _ _ h5
              | error =>
                rw [h5] at h
                simp only [palt_error] at h
                exact ihO _ _ _ h
              | panic => rw [h5] at h; cases h
              | fuelOut => rw [h5] at h; cases h
          · simp only [palt_panic] at h; cases h
    have hA : ∀ i r v, jsonArrayF (n + 1) i = .ok r v → r.length ≤ i.length := by
      intro i r v h
      rw [jsonArrayF_succ] at h
      rcases wsTag_cases ['['] i with ⟨j, h1⟩ | h1 <;> rw [h1] at h
      · simp only [pbind_ok] at h
        cases h2 : sepValuesF n j with
        | ok j2 vs =>
          rw [h2] at h
          simp only [pbind_ok] at h
          rcases wsTag_cases [']'] j2 with ⟨j3, h3⟩ | h3 <;> rw [h3] at h
          · simp only [pbind_ok] at h
            injection h with e1 e2
            subst e1
            have l1 := wsTag_length h1
            have l2 := ihS j j2 vs h2
            have l3 := wsTag_length h3
            omega
          · cases h
        | error => rw [h2] at h; cases h
        | panic => rw [h2] at h; cases h
        | fuelOut => rw [h2] at h; cases h
      · cases h
    have hO : ∀ i r v, jsonObjectF (n + 1) i = .ok r v → r.length ≤ i.length := by
      intro i r v h
      rw [jsonObjectF_succ] at h
      rcases wsTag_cases braceOpen i with ⟨j, h1⟩ | h1 <;> rw [h1] at h
      · simp only [pbind_ok] at h
        cases h2 : sepMembersF n j with
        | ok j2 ms =>
          rw [h2] at h
          simp only [pbind_ok] at h
          rcases wsTag_cases braceClose j2 with ⟨j3, h3⟩ | h3 <;> rw [h3] at h
          · simp only [pbind_ok] at h
            injection h with e1 e2
            subst e1
            have l1 := wsTag_length h1
            have l2 := ihM j j2 ms h2
            have l3 := wsTag_length h3
            omega
          · cases h
        | error => rw [h2] at h; cases h
        | panic => rw [h2] at h; cases h
        | fuelOut => rw [h2] at h; cases h
      · cases h
    have hS : ∀ i r vs, sepValuesF (n + 1) i = .ok r vs → r.length ≤ i.length := by
      intro i r vs h
      rw [sepValuesF_succ] at h
      cases h1 : jsonValueF n i with
      | ok i1 v =>
        rw [h1] at h
        simp only [pstep_ok] at h
        have l1 := ihV i i1 v h1
        have l2 := ihT i1 [v] r vs h
        omega
      | error =>
        rw [h1] at h
        simp only [pstep_error] at h
        injection h with e1 e2
        subst e1
        exact Nat.le_refl _
      | panic => rw [h1] at h; cases h
      | fuelOut => rw [h1] at h; cases h
    have hT : ∀ i acc r vs, sepValuesTailF (n + 1) i acc = .ok r vs → r.length ≤ i.length := by
      intro i acc r vs h
      rw [sepValuesTailF_succ] at h
      rcases wsTag_cases [','] i with ⟨j, h1⟩ | h1 <;> rw [h1] at h
      · simp only [pstep_ok] at h
        by_cases hc : j.length = i.length
        · rw [if_pos hc] at h; cases h
        · rw [if_neg hc] at h
          cases h2 : jsonValueF n j with
          | ok j2 v =>
            rw [h2] at h
            simp only [pstep_ok] at h
            have l1 := wsTag_length h1
            have l2 := ihV j j2 v h2
            have l3 := ihT j2 (acc ++ [v]) r vs h
            omega
          | error =>
            rw [h2] at h
            simp only [pstep_error] at h
            injection h with e1 e2
            subst e1
            exact Nat.le_refl _
          | panic => rw [h2] at h; cases h
          | fuelOut => rw [h2] at h; cases h
      · simp only [pstep_error] at h
        injection h with e1 e2
        subst e1
        exact Nat.le_refl _
    have hB : ∀ i r m, objMemberF (n + 1) i = .ok r m → r.length ≤ i.length := by
      intro i r m h
      rw [objMemberF_succ] at h
      cases h1 : string_literal i with
      | ok j k =>
        rw [h1] at h
        simp only [pbind_ok] at h
        rcases wsTag_cases [':'] j with ⟨j2, h2⟩ | h2 <;> rw [h2] at h
        · simp only [pbind_ok] at h
          cases h3 : jsonValueF n j2 with
          | ok j3 v =>
            rw [h3] at h
            simp only [pbind_ok] at h
            injection h with e1 e2
            subst e1
            have l1 := string_literal_length h1
            have l2 := wsTag_length h2
            have l3 := ihV j2 j3 v h3
            omega
          | error => rw [h3] at h; cases h
          | panic => rw [h3] at h; cases h
          | fuelOut => rw [h3] at h; cases h
        · cases h
      | error => rw [h1] at h; cases h
      | panic => rw [h1] at h; cases h
      | fuelOut => rw [h1] at h; cases h
    have hM : ∀ i r ms, sepMembersF (n + 1) i = .ok r ms → r.length ≤ i.length := by
      intro i r ms h
      rw [sepMembersF_succ] at h
      cases h1 : objMemberF n i with
      | ok i1 m =>
        rw [h1] at h
        simp only [pstep_ok] at h
        have l1 := ihB i i1 m h1
        have l2 := ihN i1 [m] r ms h
        omega
      | error =>
        rw [h1] at h
        simp only [pstep_error] at h
        injection h with e1 e2
        subst e1
        exact Nat.le_refl _
      | panic => rw [h1] at h; cases h
      | fuelOut => rw [h1] at h; cases h
    have hN : ∀ i acc r ms, sepMembersTailF (n + 1) i acc = .ok r ms → r.length ≤ i.length := by
      intro i acc r ms h
      rw [sepMembersTailF_succ] at h
      rcases wsTag_cases [','] i with ⟨j, h1⟩ | h1 <;> rw [h1] at h
      · simp only [pstep_ok] at h
        by_cases hc : j.length = i.length
        · rw [if_pos hc] at h; cases h
        · rw [if_neg hc] at h
          cases h2 : objMemberF n j with
          | ok j2 m =>
            rw [h2] at h
            simp only [pstep_ok] at h
            have l1 := wsTag_length h1
            have l2 := ihB j j2 m h2
            have l3 := ihN j2 (acc ++ [m]) r ms h
            omega
          | error =>
            rw [h2] at h
            simp only [pstep_error] at h
            injection h with e1 e2
            subst e1
            exact Nat.le_refl _
          | panic => rw [h2] at h; cases h
          | fuelOut => rw [h2] at h; cases h
      · simp only [pstep_error] at h
        injection h with e1 e2
        subst e1
        exact Nat.le_refl _
    exact ⟨hV, hA, hO, hS, hT, hB, hM, hN⟩

theorem jsonValueF_length {n : Nat} {i r : Input} {v : Json}
    (h : jsonValueF n i = .ok r v) : r.length ≤ i.length :=
  (shrinkAll n).1 _ _ _ h

theorem sepValuesF_length {n : Nat} {i r : Input} {vs : List Json}
    (h : sepValuesF n i = .ok r vs) : r.length ≤ i.length :=
  (shrinkAll n).2.2.2.1 _ _ _ h

theorem objMemberF_length {n : Nat} {i r : Input} {m : List Char × Json}
    (h : objMemberF n i = .ok r m) : r.length ≤ i.length :=
  (shrinkAll n).2.2.2.2.2.1 _ _ _ h

theorem sepMembersF_length {n : Nat} {i r : Input} {ms : List (List Char × Json)}
    (h : sepMembersF n i = .ok r ms) : r.length ≤ i.length :=
  (shrinkAll n).2.2.2.2.2.2.1 _ _ _ h

end NomJson

namespace NomJson

theorem monoAll : ∀ n m : Nat, n ≤ m →
    (∀ i, jsonValueF n i ≠ .fuelOut → jsonValueF m i = jsonValueF n i) ∧
    (∀ i, jsonArrayF n i ≠ .fuelOut → jsonArrayF m i = jsonArrayF n i) ∧
    (∀ i, jsonObjectF n i ≠ .fuelOut → jsonObjectF m i = jsonObjectF n i) ∧
    (∀ i, sepValuesF n i ≠ .fuelOut → sepValuesF m i = sepValuesF n i) ∧
    (∀ i acc, sepValuesTailF n i acc ≠ .fuelOut →
      sepValuesTailF m i acc = sepValuesTailF n i acc) ∧
    (∀ i, objMemberF n i ≠ .fuelOut → objMemberF m i = objMemberF n i) ∧
    (∀ i, sepMembersF n i ≠ .fuelOut → sepMembersF m i = sepMembersF n i) ∧
    (∀ i acc, sepMembersTailF n i acc ≠ .fuelOut →
      sepMembersTailF m i acc = sepMembersTailF n i acc) := by
  intro n
  induction n with
  | zero =>
    intro m hm
    refine ⟨?_, ?_, ?_, ?_, ?_, ?_, ?_, ?_⟩
    · intro i h
      exact absurd (jsonValueF_zero i) h
    · intro i h
      exact absurd (jsonArrayF_zero i) h
    · intro i h
      exact absurd (jsonObjectF_zero i) h
    · intro i h
      exact absurd (sepValuesF_zero i) h
    · intro i acc h
      exact absurd (sepValuesTailF_zero i acc) h
    · intro i h
      exact absurd (objMemberF_zero i) h
    · intro i h
      exact absurd (sepMembersF_zero i) h
    · intro i acc h
      exact absurd (sepMembersTailF_zero i acc) h
  | succ n ih =>
    intro m hm
    cases m with
    | zero => exact absurd hm (by omega)
    | succ m' =>
      have hm' : n ≤ m' := by omega
      obtain ⟨ihV, ihA, ihO, ihS, ihT, ihB, ihM, ihN⟩ := ih m' hm'
      have hV : ∀ i, jsonValueF (n + 1) i ≠ .fuelOut →
          jsonValueF (m' + 1) i = jsonValueF (n + 1) i := by
        intro i h
        simp only [jsonValueF_succ] at h ⊢
        rcases json_null_cases i with ⟨r1, v1, h1⟩ | h1 <;> rw [h1] at h ⊢
        · simp only [palt_ok]
        · simp only [palt_error] at h ⊢
          rcases json_bool_cases i with ⟨r1, v1, h2⟩ | h2 <;> rw [h2] at h ⊢
          · simp only [palt_ok]
          · simp only [palt_error] at h ⊢
            rcases json_number_cases i with ⟨r1, v1, h3⟩ | h3 | h3 <;> rw [h3] at h ⊢
            · simp only [palt_ok]
            · simp only [palt_error] at h ⊢
              rcases json_string_cases i with ⟨r1, v1, h4⟩ | h4 <;> rw [h4] at h ⊢
              · simp only [palt_ok]
              · simp only [palt_error] at h ⊢
                cases h5 : jsonArrayF n i with
                | ok r5 v5 =>
                  have hne : jsonArrayF n i ≠ .fuelOut := by rw [h5]; simp
                  rw [ihA i hne, h5]
                  simp only [palt_ok]
                | error =>
                  have hne : jsonArrayF n i ≠ .fuelOut := by rw [h5]; simp
                  rw [ihA i hne, h5]
                  rw [h5] at h
                  simp only [palt_error] at h ⊢
                  exact ihO i h
                | panic =>
                  have hne : jsonArrayF n i ≠ .fuelOut := by rw [h5]; simp
                  rw [ihA i hne, h5]
                  rfl
                | fuelOut =>
                  rw [h5] at h
                  simp only [palt_fuelOut] at h
                  exact absurd rfl h
            · simp only [palt_panic]
      have hA : ∀ i, jsonArrayF (n + 1) i ≠ .fuelOut →
          jsonArrayF (m' + 1) i = jsonArrayF (n + 1) i := by
        intro i h
        simp only [jsonArrayF_succ] at h ⊢
        rcases wsTag_cases ['['] i with ⟨j, h1⟩ | h1 <;> rw [h1] at h ⊢
        · simp only [pbind_ok] at h ⊢
          cases h2 : sepValuesF n j with
          | ok j2 vs =>
            have hne : sepValuesF n j ≠ .fuelOut := by rw [h2]; simp
            rw [ihS j hne, h2]
          | error =>
            have hne : sepValuesF n j ≠ .fuelOut := by rw [h2]; simp
            rw [ihS j hne, h2]
          | panic =>
            have hne : sepValuesF n j ≠ .fuelOut := by rw [h2]; simp
            rw [ihS j hne, h2]
          | fuelOut =>
            rw [h2] at h
            simp only [pbind_fuelOut] at h
            exact absurd rfl h
        · rfl
      have hO : ∀ i, jsonObjectF (n + 1) i ≠ .fuelOut →
          jsonObjectF (m' + 1) i = jsonObjectF (n + 1) i := by
        intro i h
        simp only [jsonObjectF_succ] at h ⊢
        rcases wsTag_cases braceOpen i with ⟨j, h1⟩ | h1 <;> rw [h1] at h ⊢
        · simp only [pbind_ok] at h ⊢
          cases h2 : sepMembersF n j with
          | ok j2 ms =>
            have hne : sepMembersF n j ≠ .fuelOut := by rw [h2]; simp
            rw [ihM j hne, h2]
          | error =>
            have hne : sepMembersF n j ≠ .fuelOut := by rw [h2]; simp
            rw [ihM j hne, h2]
          | panic =>
            have hne : sepMembersF n j ≠ .fuelOut := by rw [h2]; simp
            rw [ihM j hne, h2]
          | fuelOut =>
            rw [h2] at h
            simp only [pbind_fuelOut] at h
            exact absurd rfl h
        · rfl
      have hS : ∀ i, sepValuesF (n + 1) i ≠ .fuelOut →
          sepValuesF (m' + 1) i = sepValuesF (n + 1) i := by
        intro i h
        simp only [sepValuesF_succ] at h ⊢
        cases h1 : jsonValueF n i with
        | ok i1 v =>
          have hne : jsonValueF n i ≠ .fuelOut := by rw [h1]; simp
          rw [ihV i hne, h1]
          rw [h1] at h
          simp only [pstep_ok] at h ⊢
          exact ihT i1 [v] h
        | error =>
          have hne : jsonValueF n i ≠ .fuelOut := by rw [h1]; simp
          rw [ihV i hne, h1]
          rfl
        | panic =>
          have hne : jsonValueF n i ≠ .fuelOut := by rw [h1]; simp
          rw [ihV i hne, h1]
          rfl
        | fuelOut =>
          rw [h1] at h
          simp only [pstep_fuelOut] at h
          exact absurd rfl h
      have hT : ∀ i acc, sepValuesTailF (n + 1) i acc ≠ .fuelOut →
          sepValuesTailF (m' + 1) i acc = sepValuesTailF (n + 1) i acc := by
        intro i acc h
        simp only [sepValuesTailF_succ] at h ⊢
        rcases wsTag_cases [','] i with ⟨j, h1⟩ | h1 <;> rw [h1] at h ⊢
        · simp only [pstep_ok] at h ⊢
          by_cases hc : j.length = i.length
          · rw [if_pos hc, if_pos hc]
          · rw [if_neg hc] at h
            rw [if_neg hc, if_neg hc]
            cases h2 : jsonValueF n j with
            | ok j2 v =>
              have hne : jsonValueF n j ≠ .fuelOut := by rw [h2]; simp
              rw [ihV j hne, h2]
              rw [h2] at h
              simp only [pstep_ok] at h ⊢
              exact ihT j2 (acc ++ [v]) h
            | error =>
              have hne : jsonValueF n j ≠ .fuelOut := by rw [h2]; simp
              rw [ihV j hne, h2]
              rfl
            | panic =>
              have hne : jsonValueF n j ≠ .fuelOut := by rw [h2]; simp
              rw [ihV j hne, h2]
              rfl
            | fuelOut =>
              rw [h2] at h
              simp only [pstep_fuelOut] at h
              exact absurd rfl h
        · rfl
      have hB : ∀ i, objMemberF (n + 1) i ≠ .fuelOut →
          objMemberF (m' + 1) i = objMemberF (n + 1) i := by
        intro i h
        simp only [objMemberF_succ] at h ⊢
        rcases string_literal_cases i with ⟨j, k, h1⟩ | h1 <;> rw [h1] at h ⊢
        · simp only [pbind_ok] at h ⊢
          rcases wsTag_cases [':'] j with ⟨j2, h2⟩ | h2 <;> rw [h2] at h ⊢
          · simp only [pbind_ok] at h ⊢
            cases h3 : jsonValueF n j2 with
            | ok j3 v =>
              have hne : jsonValueF n j2 ≠ .fuelOut := by rw [h3]; simp
              rw [ihV j2 hne, h3]
            | error =>
              have hne : jsonValueF n j2 ≠ .fuelOut := by rw [h3]; simp
              rw [ihV j2 hne, h3]
            | panic =>
              have hne : jsonValueF n j2 ≠ .fuelOut := by rw [h3]; simp
              rw [ihV j2 hne, h3]
            | fuelOut =>
              rw [h3] at h
              simp only [pbind_fuelOut] at h
              exact absurd rfl h
          · rfl
        · rfl
      have hM : ∀ i, sepMembersF (n + 1) i ≠ .fuelOut →
          sepMembersF (m' + 1) i = sepMembersF (n + 1) i := by
        intro i h
        simp only [sepMembersF_succ] at h ⊢
        cases h1 : objMemberF n i with
        | ok i1 m1 =>
          have hne : objMemberF n i ≠ .fuelOut := by rw [h1]; simp
          rw [ihB i hne, h1]
          rw [h1] at h
          simp only [pstep_ok] at h ⊢
          exact ihN i1 [m1] h
        | error =>
          have hne : objMemberF n i ≠ .fuelOut := by rw [h1]; simp
          rw [ihB i hne, h1]
          rfl
        | panic =>
          have hne : objMemberF n i ≠ .fuelOut := by rw [h1]; simp
          rw [ihB i hne, h1]
          rfl
        | fuelOut =>
          rw [h1] at h
          simp only [pstep_fuelOut] at h
          exact absurd rfl h
      have hN : ∀ i acc, sepMembersTailF (n + 1) i acc ≠ .fuelOut →
          sepMembersTailF (m' + 1) i acc = sepMembersTailF (n + 1) i acc := by
        intro i acc h
        simp only [sepMembersTailF_succ] at h ⊢
        rcases wsTag_cases [','] i with ⟨j, h1⟩ | h1 <;> rw [h1] at h ⊢
        · simp only [pstep_ok] at h ⊢
          by_cases hc : j.length = i.length
          · rw [if_pos hc, if_pos hc]
          · rw [if_neg hc] at h
            rw [if_neg hc, if_neg hc]
            cases h2 : objMemberF n j with
            | ok j2 m1 =>
              have hne : objMemberF n j ≠ .fuelOut := by rw [h2]; simp
              rw [ihB j hne, h2]
              rw [h2] at h
              simp only [pstep_ok] at h ⊢
              exact ihN j2 (acc ++ [m1]) h
            | error =>
              have hne : objMemberF n j ≠ .fuelOut := by rw [h2]; simp
              rw [ihB j hne, h2]
              rfl
            | panic =>
              have hne : objMemberF n j ≠ .fuelOut := by rw [h2]; simp
              rw [ihB j hne, h2]
              rfl
            | fuelOut =>
              rw [h2] at h
              simp only [pstep_fuelOut] at h
              exact absurd rfl h
        · rfl
      exact ⟨hV, hA, hO, hS, hT, hB, hM, hN⟩

end NomJson

namespace NomJson

theorem jsonValueF_mono {n m : Nat} {i : Input} (hnm : n ≤ m)
    (h : jsonValueF n i ≠ .fuelOut) : jsonValueF m i = jsonValueF n i :=
  (monoAll n m hnm).1 i h

theorem jsonArrayF_mono {n m : Nat} {i : Input} (hnm : n ≤ m)
    (h : jsonArrayF n i ≠ .fuelOut) : jsonArrayF m i = jsonArrayF n i :=
  (monoAll n m hnm).2.1 i h

theorem jsonObjectF_mono {n m : Nat} {i : Input} (hnm : n ≤ m)
    (h : jsonObjectF n i ≠ .fuelOut) : jsonObjectF m i = jsonObjectF n i :=
  (monoAll n m hnm).2.2.1 i h

theorem sepValuesF_mono {n m : Nat} {i : Input} (hnm : n ≤ m)
    (h : sepValuesF n i ≠ .fuelOut) : sepValuesF m i = sepValuesF n i :=
  (monoAll n m hnm).2.2.2.1 i h

theorem sepValuesTailF_mono {n m : Nat} {i : Input} {acc : List Json} (hnm : n ≤ m)
    (h : sepValuesTailF n i acc ≠ .fuelOut) :
    sepValuesTailF m i acc = sepValuesTailF n i acc :=
  (monoAll n m hnm).2.2.2.2.1 i acc h

theorem objMemberF_mono {n m : Nat} {i : Input} (hnm : n ≤ m)
    (h : objMemberF n i ≠ .fuelOut) : objMemberF m i = objMemberF n i :=
  (monoAll n m hnm).2.2.2.2.2.1 i h

theorem sepMembersF_mono {n m : Nat} {i : Input} (hnm : n ≤ m)
    (h : sepMembersF n i ≠ .fuelOut) : sepMembersF m i = sepMembersF n i :=
  (monoAll n m hnm).2.2.2.2.2.2.1 i h

theorem sepMembersTailF_mono {n m : Nat} {i : Input} {acc : List (List Char × Json)}
    (hnm : n ≤ m) (h : sepMembersTailF n i acc ≠ .fuelOut) :
    sepMembersTailF m i acc = sepMembersTailF n i acc :=
  (monoAll n m hnm).2.2.2.2.2.2.2 i acc h

theorem suffAll : ∀ L : Nat, ∀ i : Input, i.length ≤ L →
    jsonValueF (4 * L + 2) i ≠ .fuelOut ∧
    jsonArrayF (4 * L + 1) i ≠ .fuelOut ∧
    jsonObjectF (4 * L + 1) i ≠ .fuelOut ∧
    sepValuesF (4 * L + 4) i ≠ .fuelOut ∧
    (∀ acc, sepValuesTailF (4 * L + 1) i acc ≠ .fuelOut) ∧
    objMemberF (4 * L + 1) i ≠ .fuelOut ∧
    sepMembersF (4 * L + 2) i ≠ .fuelOut ∧
    (∀ acc, sepMembersTailF (4 * L + 1) i acc ≠ .fuelOut) := by
  intro L
  induction L using Nat.strong_induction_on with
  | _ L IH =>
    have hA : ∀ i : Input, i.length ≤ L → jsonArrayF (4 * L + 1) i ≠ .fuelOut := by
      intro i hi
      rw [jsonArrayF_succ]
      rcases wsTag_cases ['['] i with ⟨j, h1⟩ | h1 <;> rw [h1]
      · simp only [pbind_ok]
        have hj : j.length < i.length := wsTag_lt (by simp) h1
        have hS' := (IH (L - 1) (by omega) j (by omega)).2.2.2.1
        have heq : 4 * (L - 1) + 4 = 4 * L := by omega
        rw [heq] at hS'
        cases h2 : sepValuesF (4 * L) j with
        | ok j2 vs =>
          simp only [pbind_ok]
          rcases wsTag_cases [']'] j2 with ⟨j3, h3⟩ | h3 <;> rw [h3] <;> simp
        | error => simp
        | panic => simp
        | fuelOut => exact absurd h2 hS'
      · simp
    have hO : ∀ i : Input, i.length ≤ L → jsonObjectF (4 * L + 1) i ≠ .fuelOut := by
      intro i hi
      rw [jsonObjectF_succ]
      rcases wsTag_cases braceOpen i with ⟨j, h1⟩ | h1 <;> rw [h1]
      · simp only [pbind_ok]
        have hj : j.length < i.length := wsTag_lt (by simp [braceOpen]) h1
        have hM' := (IH (L - 1) (by omega) j (by omega)).2.2.2.2.2.2.1
        have heq : 4 * (L - 1) + 2 ≤ 4 * L := by omega
        have hne : sepMembersF (4 * L) j ≠ .fuelOut := by
          rw [sepMembersF_mono heq hM']
          exact hM'
        cases h2 : sepMembersF (4 * L) j with
        | ok j2 ms =>
          simp only [pbind_ok]
          rcases wsTag_cases braceClose j2 with ⟨j3, h3⟩ | h3 <;> rw [h3] <;> simp
        | error => simp
        | panic => simp
        | fuelOut => exact absurd h2 hne
      · simp
    have hB : ∀ i : Input, i.length ≤ L → objMemberF (4 * L + 1) i ≠ .fuelOut := by
      intro i hi
      rw [objMemberF_succ]
      rcases string_literal_cases i with ⟨j, k, h1⟩ | h1 <;> rw [h1]
      · simp only [pbind_ok]
        rcases wsTag_cases [':'] j with ⟨j2, h2⟩ | h2 <;> rw [h2]
        · simp only [pbind_ok]
          have l1 := string_literal_length h1
          have l2 : j2.length < j.length := wsTag_lt (by simp) h2
          have hV' := (IH (L - 1) (by omega) j2 (by omega)).1
          have hne : jsonValueF (4 * L) j2 ≠ .fuelOut := by
            rw [jsonValueF_mono (show 4 * (L - 1) + 2 ≤ 4 * L by omega) hV']
            exact hV'
          cases h3 : jsonValueF (4 * L) j2 with
          | ok j3 v => simp
          | error => simp
          | panic => simp
          | fuelOut => exact absurd h3 hne
        · simp
      · simp
    have hT : ∀ i : Input, i.length ≤ L → ∀ acc,
        sepValuesTailF (4 * L + 1) i acc ≠ .fuelOut := by
      intro i hi acc
      rw [sepValuesTailF_succ]
      rcases wsTag_cases [','] i with ⟨j, h1⟩ | h1 <;> rw [h1]
      · simp only [pstep_ok]
        have hj : j.length < i.length := wsTag_lt (by simp) h1
        by_cases hc : j.length = i.length
        · rw [if_pos hc]; simp
        · rw [if_neg hc]
          have hV' := (IH (L - 1) (by omega) j (by omega)).1
          have hne : jsonValueF (4 * L) j ≠ .fuelOut := by
            rw [jsonValueF_mono (show 4 * (L - 1) + 2 ≤ 4 * L by omega) hV']
            exact hV'
          cases h2 : jsonValueF (4 * L) j with
          | ok j2 v =>
            simp only [pstep_ok]
            have hj2 : j2.length ≤ j.length := jsonValueF_length h2
            have hT' := (IH (L - 1) (by omega) j2 (by omega)).2.2.2.2.1 (acc ++ [v])
            have := sepValuesTailF_mono (show 4 * (L - 1) + 1 ≤ 4 * L by omega) hT'
            rw [this]
            exact hT'
          | error => simp
          | panic => simp
          | fuelOut => exact absurd h2 hne
      · simp
    have hN : ∀ i : Input, i.length ≤ L → ∀ acc,
        sepMembersTailF (4 * L + 1) i acc ≠ .fuelOut := by
      intro i hi acc
      rw [sepMembersTailF_succ]
      rcases wsTag_cases [','] i with ⟨j, h1⟩ | h1 <;> rw [h1]
      · simp only [pstep_ok]
        have hj : j.length < i.length := wsTag_lt (by simp) h1
        by_cases hc : j.length = i.length
        · rw [if_pos hc]; simp
        · rw [if_neg hc]
          have hB' := (IH (L - 1) (by omega) j (by omega)).2.2.2.2.2.1
          have hne : objMemberF (4 * L) j ≠ .fuelOut := by
            rw [objMemberF_mono (show 4 * (L - 1) + 1 ≤ 4 * L by omega) hB']
            exact hB'
          cases h2 : objMemberF (4 * L) j with
          | ok j2 m =>
            simp only [pstep_ok]
            have hj2 : j2.length ≤ j.length := objMemberF_length h2
            have hN' := (IH (L - 1) (by omega) j2 (by omega)).2.2.2.2.2.2.2 (acc ++ [m])
            have := sepMembersTailF_mono (show 4 * (L - 1) + 1 ≤ 4 * L by omega) hN'
            rw [this]
            exact hN'
          | error => simp
          | panic => simp
          | fuelOut => exact absurd h2 hne
      · simp
    have hV : ∀ i : Input, i.length ≤ L → jsonValueF (4 * L + 2) i ≠ .fuelOut := by
      intro i hi
      rw [show 4 * L + 2 = (4 * L + 1) + 1 by omega, jsonValueF_succ]
      rcases json_null_cases i with ⟨r1, v1, h1⟩ | h1 <;> rw [h1]
      · simp
      · simp only [palt_error]
        rcases json_bool_cases i with ⟨r1, v1, h2⟩ | h2 <;> rw [h2]
        · simp
        · simp only [palt_error]
          rcases json_number_cases i with ⟨r1, v1, h3⟩ | h3 | h3 <;> rw [h3]
          · simp
          · simp only [palt_error]
            rcases json_string_cases i with ⟨r1, v1, h4⟩ | h4 <;> rw [h4]
            · simp
            · simp only [palt_error]
              cases h5 : jsonArrayF (4 * L + 1) i with
              | ok r5 v5 => simp
              | error =>
                simp only [palt_error]
                exact hO i hi
              | panic => simp
              | fuelOut => exact absurd h5 (hA i hi)
          · simp
    have hM : ∀ i : Input, i.length ≤ L → sepMembersF (4 * L + 2) i ≠ .fuelOut := by
      intro i hi
      rw [show 4 * L + 2 = (4 * L + 1) + 1 by omega, sepMembersF_succ]
      cases h1 : objMemberF (4 * L + 1) i with
      | ok i1 m =>
        simp only [pstep_ok]
        exact hN i1 (le_trans (objMemberF_length h1) hi) [m]
      | error => simp
      | panic => simp
      | fuelOut => exact absurd h1 (hB i hi)
    have hS : ∀ i : Input, i.length ≤ L → sepValuesF (4 * L + 4) i ≠ .fuelOut := by
      intro i hi
      rw [show 4 * L + 4 = (4 * L + 3) + 1 by omega, sepValuesF_succ]
      have hne : jsonValueF (4 * L + 3) i ≠ .fuelOut := by
        rw [jsonValueF_mono (show 4 * L + 2 ≤ 4 * L + 3 by omega) (hV i hi)]
        exact hV i hi
      cases h1 : jsonValueF (4 * L + 3) i with
      | ok i1 v =>
        simp only [pstep_ok]
        have hT' := hT i1 (le_trans (jsonValueF_length h1) hi) [v]
        have := sepValuesTailF_mono (show 4 * L + 1 ≤ 4 * L + 3 by omega) hT'
        rw [this]
        exact hT'
      | error => simp
      | panic => simp
      | fuelOut => exact absurd h1 hne
    intro i hi
    exact ⟨hV i hi, hA i hi, hO i hi, hS i hi, hT i hi, hB i hi, hM i hi, hN i hi⟩

end NomJson

namespace NomJson

theorem jsonValueF_stable {n : Nat} {i : Input} (h : 4 * i.length + 2 ≤ n) :
    jsonValueF n i = json_value i := by
  unfold json_value
  exact jsonValueF_mono h (suffAll i.length i le_rfl).1

theorem jsonArrayF_stable {n : Nat} {i : Input} (h : 4 * i.length + 1 ≤ n) :
    jsonArrayF n i = json_array i := by
  unfold json_array
  exact jsonArrayF_mono h (suffAll i.length i le_rfl).2.1

theorem jsonObjectF_stable {n : Nat} {i : Input} (h : 4 * i.length + 1 ≤ n) :
    jsonObjectF n i = json_object i := by
  unfold json_object
  exact jsonObjectF_mono h (suffAll i.length i le_rfl).2.2.1

theorem sepValuesF_stable {n : Nat} {i : Input} (h : 4 * i.length + 4 ≤ n) :
    sepValuesF n i = separated_values i := by
  unfold separated_values
  exact sepValuesF_mono h (suffAll i.length i le_rfl).2.2.2.1

theorem sepMembersF_stable {n : Nat} {i : Input} (h : 4 * i.length + 2 ≤ n) :
    sepMembersF n i = object_members i := by
  unfold object_members
  exact sepMembersF_mono h (suffAll i.length i le_rfl).2.2.2.2.2.2.1

/-- The value dispatcher, expressed over the named top-level recognizers:
`json_value` is the `alt` chain in source order. -/
theorem json_value_eq (i : Input) : json_value i =
    palt (json_null i) (fun _ =>
    palt (json_bool i) (fun _ =>
    palt (json_number i) (fun _ =>
    palt (json_string i) (fun _ =>
    palt (json_array i) (fun _ =>
    json_object i))))) := rfl

/-- `json_array`, expressed over the top-level element-list parser. -/
theorem json_array_eq (i : Input) : json_array i =
    pbind (wsTag ['['] i) (fun i1 _ =>
    pbind (separated_values i1) (fun i2 vs =>
    pbind (wsTag [']'] i2) (fun i3 _ => .ok i3 (Json.array vs)))) := by
  unfold json_array
  rw [jsonArrayF_succ]
  rcases wsTag_cases ['['] i with ⟨j, h1⟩ | h1 <;> rw [h1]
  · simp only [pbind_ok]
    have hj : j.length < i.length := wsTag_lt (by simp) h1
    rw [sepValuesF_stable (by omega)]
  · rfl

/-- `json_object`, expressed over the top-level member-list parser. -/
theorem json_object_eq (i : Input) : json_object i =
    pbind (wsTag braceOpen i) (fun i1 _ =>
    pbind (object_members i1) (fun i2 ms =>
    pbind (wsTag braceClose i2) (fun i3 _ => .ok i3 (Json.object ms)))) := by
  unfold json_object
  rw [jsonObjectF_succ]
  rcases wsTag_cases braceOpen i with ⟨j, h1⟩ | h1 <;> rw [h1]
  · simp only [pbind_ok]
    have hj : j.length < i.length := wsTag_lt (by simp [braceOpen]) h1
    rw [sepMembersF_stable (by omega)]
  · rfl

theorem eofP_nil : eofP [] = .ok [] [] := rfl

theorem eofP_cons (c : Char) (t : Input) : eofP (c :: t) = .error := rfl

/-- The document parse succeeds exactly when the value dispatcher succeeds
with empty remaining input, and then the document's own rest is empty. -/
theorem json_ok_iff {i r : Input} {v : Json} :
    json i = .ok r v ↔ json_value i = .ok [] v ∧ r = [] := by
  unfold json
  cases h : json_value i with
  | ok rest w =>
    cases rest with
    | nil =>
      simp only [pbind_ok, eofP_nil]
      constructor
      · intro he
        injection he with e1 e2
        subst e1
        subst e2
        exact ⟨rfl, rfl⟩
      · rintro ⟨he, rfl⟩
        exact he
    | cons c t =>
      simp only [pbind_ok, eofP_cons, pbind_error]
      constructor
      · intro he
        cases he
      · rintro ⟨he, -⟩
        injection he with e1 e2
        cases e1
  | error =>
    simp only [pbind_error]
    constructor
    · intro he
      cases he
    · rintro ⟨he, -⟩
      cases he
  | panic =>
    simp only [pbind_panic]
    constructor
    · intro he
      cases he
    · rintro ⟨he, -⟩
      cases he
  | fuelOut =>
    simp only [pbind_fuelOut]
    constructor
    · intro he
      cases he
    · rintro ⟨he, -⟩
      cases he

/-- Unconsumed input after a successful value parse makes the document
parse fail (the `eof` in `json` rejects it). -/
theorem json_trailing {i r : Input} {v : Json} (h : json_value i = .ok r v)
    (hr : r ≠ []) : json i = .error := by
  unfold json
  rw [h]
  simp only [pbind_ok]
  cases r with
  | nil => exact absurd rfl hr
  | cons c t => rw [eofP_cons]; rfl

theorem json_array_ok_lead {i r : Input} {v : Json} (h : json_array i = .ok r v) :
    leadChar i = some '[' := by
  unfold json_array at h
  rw [jsonArrayF_succ] at h
  rcases wsTag_cases ['['] i with ⟨j, h1⟩ | h1
  · exact wsTag_ok_lead h1
  · rw [h1] at h
    cases h

theorem json_object_ok_lead {i r : Input} {v : Json} (h : json_object i = .ok r v) :
    leadChar i = some '\x7b' := by
  unfold json_object at h
  rw [jsonObjectF_succ] at h
  rcases wsTag_cases braceOpen i with ⟨j, h1⟩ | h1
  · exact wsTag_ok_lead h1
  · rw [h1] at h
    cases h

theorem json_array_error_lead {i : Input} (h : leadChar i ≠ some '[') :
    json_array i = .error := by
  unfold json_array
  rw [jsonArrayF_succ, wsTag_error_head h]
  rfl

theorem json_object_error_lead {i : Input} (h : leadChar i ≠ some '\x7b') :
    json_object i = .error := by
  unfold json_object
  rw [jsonObjectF_succ]
  rw [show braceOpen = '\x7b' :: ([] : Input) from rfl, wsTag_error_head h]
  rfl

/-- A successful dispatch comes from one of the six recognizers, with the
same rest and value. -/
theorem json_value_arm {i r : Input} {v : Json} (h : json_value i = .ok r v) :
    json_null i = .ok r v ∨ json_bool i = .ok r v ∨ json_number i = .ok r v ∨
    json_string i = .ok r v ∨ json_array i = .ok r v ∨ json_object i = .ok r v := by
  rw [json_value_eq] at h
  rcases json_null_cases i with ⟨r1, v1, h1⟩ | h1 <;> rw [h1] at h
  · simp only [palt_ok] at h
    exact Or.inl (h1.trans h)
  · simp only [palt_error] at h
    rcases json_bool_cases i with ⟨r1, v1, h2⟩ | h2 <;> rw [h2] at h
    · simp only [palt_ok] at h
      exact Or.inr (Or.inl (h2.trans h))
    · simp only [palt_error] at h
      rcases json_number_cases i with ⟨r1, v1, h3⟩ | h3 | h3 <;> rw [h3] at h
      · simp only [palt_ok] at h
        exact Or.inr (Or.inr (Or.inl (h3.trans h)))
      · simp only [palt_error] at h
        rcases json_string_cases i with ⟨r1, v1, h4⟩ | h4 <;> rw [h4] at h
        · simp only [palt_ok] at h
          exact Or.inr (Or.inr (Or.inr (Or.inl (h4.trans h))))
        · simp only [palt_error] at h
          cases h5 : json_array i with
          | ok r5 v5 =>
            rw [h5] at h
            simp only [palt_ok] at h
            exact Or.inr (Or.inr (Or.inr (Or.inr (Or.inl h))))
          | error =>
            rw [h5] at h
            simp only [palt_error] at h
            exact Or.inr (Or.inr (Or.inr (Or.inr (Or.inr h))))
          | panic => rw [h5] at h; simp only [palt_panic] at h; cases h
          | fuelOut => rw [h5] at h; simp only [palt_fuelOut] at h; cases h
      · simp only [palt_panic] at h
        cases h

end NomJson

namespace NomJson

theorem isOkR_dest {α : Type} {x : PResult α} (h : isOkR x) : ∃ r v, x = .ok r v := by
  cases x with
  | ok r v => exact ⟨r, v, rfl⟩
  | error => exact h.elim
  | panic => exact h.elim
  | fuelOut => exact h.elim

theorem isOkR_ok {α : Type} (r : Input) (v : α) : isOkR (.ok r v) := trivial

theorem leadChar_of_head {i : Input} {c : Char} (hc : isWsChar c = false)
    (h : i.head? = some c) : leadChar i = some c := by
  cases i with
  | nil => cases h
  | cons a t =>
    injection h with e
    subst e
    unfold leadChar
    rw [dropWhile_cons_false hc]
    rfl

theorem digit_not_ws {c : Char} (h : isDigitChar c = true) : isWsChar c = false := by
  have h1 : c ≠ ' ' := fun e => absurd (e ▸ h) (by decide)
  have h2 : c ≠ '\t' := fun e => absurd (e ▸ h) (by decide)
  have h3 : c ≠ '\n' := fun e => absurd (e ▸ h) (by decide)
  have h4 : c ≠ '\r' := fun e => absurd (e ▸ h) (by decide)
  unfold isWsChar
  simp [h1, h2, h3, h4]

theorem json_null_lead {i r : Input} {v : Json} (h : json_null i = .ok r v) :
    leadChar i = some 'n' := by
  obtain ⟨-, rfl⟩ := json_null_ok_dest h
  exact leadChar_of_head (by decide) rfl

theorem json_bool_lead {i r : Input} {v : Json} (h : json_bool i = .ok r v) :
    leadChar i = some 't' ∨ leadChar i = some 'f' := by
  rcases json_bool_ok_dest h with ⟨-, rfl⟩ | ⟨-, rfl⟩
  · exact Or.inl (leadChar_of_head (by decide) rfl)
  · exact Or.inr (leadChar_of_head (by decide) rfl)

theorem json_number_lead {i r : Input} {v : Json} (h : json_number i = .ok r v) :
    ∃ c, leadChar i = some c ∧ isDigitChar c = true := by
  obtain ⟨ds, hne, hds, rfl, -, -⟩ := json_number_ok_dest h
  cases ds with
  | nil => exact absurd rfl hne
  | cons c t =>
    have hd : isDigitChar c = true := hds c (by simp)
    exact ⟨c, leadChar_of_head (digit_not_ws hd) rfl, hd⟩

theorem json_string_lead {i r : Input} {v : Json} (h : json_string i = .ok r v) :
    leadChar i = some '"' := by
  obtain ⟨s, -, hs⟩ := json_string_ok_dest h
  exact leadChar_of_head (by decide) (string_literal_ok_lead hs)

/-- C8 core: the six recognizers have disjoint lead tokens — on any one
input at most one of them can succeed. -/
theorem recognizers_disjoint : ∀ (i : Input) (p q : Input → PResult Json),
    p ∈ recognizers → q ∈ recognizers → isOkR (p i) → isOkR (q i) → p = q := by
  intro i p q hp hq hpok hqok
  simp only [recognizers, List.mem_cons, List.not_mem_nil, or_false] at hp hq
  obtain ⟨r1, v1, e1⟩ := isOkR_dest hpok
  obtain ⟨r2, v2, e2⟩ := isOkR_dest hqok
  rcases hp with rfl | rfl | rfl | rfl | rfl | rfl <;>
    rcases hq with rfl | rfl | rfl | rfl | rfl | rfl
  · rfl
  · exfalso
    have L1 := json_null_lead e1
    rcases json_bool_lead e2 with L2 | L2 <;> rw [L1] at L2 <;>
      (injection L2 with e; exact absurd e (by decide))
  · exfalso
    have L1 := json_null_lead e1
    obtain ⟨c, hc, hd⟩ := json_number_lead e2
    rw [L1] at hc
    injection hc with e
    subst e
    exact absurd hd (by decide)
  · exfalso
    have L1 := json_null_lead e1
    have L2 := json_string_lead e2
    rw [L1] at L2
    injection L2 with e
    exact absurd e (by decide)
  · exfalso
    have L1 := json_null_lead e1
    have L2 := json_array_ok_lead e2
    rw [L1] at L2
    injection L2 with e
    exact absurd e (by decide)
  · exfalso
    have L1 := json_null_lead e1
    have L2 := json_object_ok_lead e2
    rw [L1] at L2
    injection L2 with e
    exact absurd e (by decide)
  · exfalso
    have L2 := json_null_lead e2
    rcases json_bool_lead e1 with L1 | L1 <;> rw [L2] at L1 <;>
      (injection L1 with e; exact absurd e (by decide))
  · rfl
  · exfalso
    obtain ⟨c, hc, hd⟩ := json_number_lead e2
    rcases json_bool_lead e1 with L1 | L1 <;> rw [L1] at hc <;>
      (injection hc with e; subst e; exact absurd hd (by decide))
  · exfalso
    have L2 := json_string_lead e2
    rcases json_bool_lead e1 with L1 | L1 <;> rw [L2] at L1 <;>
      (injection L1 with e; exact absurd e (by decide))
  · exfalso
    have L2 := json_array_ok_lead e2
    rcases json_bool_lead e1 with L1 | L1 <;> rw [L2] at L1 <;>
      (injection L1 with e; exact absurd e (by decide))
  · exfalso
    have L2 := json_object_ok_lead e2
    rcases json_bool_lead e1 with L1 | L1 <;> rw [L2] at L1 <;>
      (injection L1 with e; exact absurd e (by decide))
  · exfalso
    have L2 := json_null_lead e2
    obtain ⟨c, hc, hd⟩ := json_number_lead e1
    rw [L2] at hc
    injection hc with e
    subst e
    exact absurd hd (by decide)
  · exfalso
    obtain ⟨c, hc, hd⟩ := json_number_lead e1
    rcases json_bool_lead e2 with L2 | L2 <;> rw [L2] at hc <;>
      (injection hc with e; subst e; exact absurd hd (by decide))
  · rfl
  · exfalso
    obtain ⟨c, hc, hd⟩ := json_number_lead e1
    have L2 := json_string_lead e2
    rw [L2] at hc
    injection hc with e
    subst e
    exact absurd hd (by decide)
  · exfalso
    obtain ⟨c, hc, hd⟩ := json_number_lead e1
    have L2 := json_array_ok_lead e2
    rw [L2] at hc
    injection hc with e
    subst e
    exact absurd hd (by decide)
  · exfalso
    obtain ⟨c, hc, hd⟩ := json_number_lead e1
    have L2 := json_object_ok_lead e2
    rw [L2] at hc
    injection hc with e
    subst e
    exact absurd hd (by decide)
  · exfalso
    have L1 := json_string_lead e1
    have L2 := json_null_lead e2
    rw [L1] at L2
    injection L2 with e
    exact absurd e (by decide)
  · exfalso
    have L1 := json_string_lead e1
    rcases json_bool_lead e2 with L2 | L2 <;> rw [L1] at L2 <;>
      (injection L2 with e; exact absurd e (by decide))
  · exfalso
    have L1 := json_string_lead e1
    obtain ⟨c, hc, hd⟩ := json_number_lead e2
    rw [L1] at hc
    injection hc with e
    subst e
    exact absurd hd (by decide)
  · rfl
  · exfalso
    have L1 := json_string_lead e1
    have L2 := json_array_ok_lead e2
    rw [L1] at L2
    injection L2 with e
    exact absurd e (by decide)
  · exfalso
    have L1 := json_string_lead e1
    have L2 := json_object_ok_lead e2
    rw [L1] at L2
    injection L2 with e
    exact absurd e (by decide)
  · exfalso
    have L1 := json_array_ok_lead e1
    have L2 := json_null_lead e2
    rw [L1] at L2
    injection L2 with e
    exact absurd e (by decide)
  · exfalso
    have L1 := json_array_ok_lead e1
    rcases json_bool_lead e2 with L2 | L2 <;> rw [L1] at L2 <;>
      (injection L2 with e; exact absurd e (by decide))
  · exfalso
    have L1 := json_array_ok_lead e1
    obtain ⟨c, hc, hd⟩ := json_number_lead e2
    rw [L1] at hc
    injection hc with e
    subst e
    exact absurd hd (by decide)
  · exfalso
    have L1 := json_array_ok_lead e1
    have L2 := json_string_lead e2
    rw [L1] at L2
    injection L2 with e
    exact absurd e (by decide)
  · rfl
  · exfalso
    have L1 := json_array_ok_lead e1
    have L2 := json_object_ok_lead e2
    rw [L1] at L2
    injection L2 with e
    exact absurd e (by decide)
  · exfalso
    have L1 := json_object_ok_lead e1
    have L2 := json_null_lead e2
    rw [L1] at L2
    injection L2 with e
    exact absurd e (by decide)
  · exfalso
    have L1 := json_object_ok_lead e1
    rcases json_bool_lead e2 with L2 | L2 <;> rw [L1] at L2 <;>
      (injection L2 with e; exact absurd e (by decide))
  · exfalso
    have L1 := json_object_ok_lead e1
    obtain ⟨c, hc, hd⟩ := json_number_lead e2
    rw [L1] at hc
    injection hc with e
    subst e
    exact absurd hd (by decide)
  · exfalso
    have L1 := json_object_ok_lead e1
    have L2 := json_string_lead e2
    rw [L1] at L2
    injection L2 with e
    exact absurd e (by decide)
  · exfalso
    have L1 := json_object_ok_lead e1
    have L2 := json_array_ok_lead e2
    rw [L1] at L2
    injection L2 with e
    exact absurd e (by decide)
  · rfl

end NomJson

namespace NomJson

/-- C1: on an input that is a digit run whose value exceeds `u64::MAX`
(here `2^64 = 18446744073709551616`), `json_number` does NOT return a
failure value — the `unwrap()` on the overflowing `parse::<u64>()`
panics. This refutes the claim that the number recognizer "fails with a
hard error … it does not panic": the code panics. -/
theorem claim_C1_oversized_number_panics :
    u64Max < digitsVal ("18446744073709551616".toList) ∧
    json_number ("18446744073709551616".toList) = .panic ∧
    json_number ("18446744073709551616".toList) ≠ .error := by
  refine ⟨by decide, rfl, ?_⟩
  intro h
  rw [show json_number ("18446744073709551616".toList) = .panic from rfl] at h
  cases h

/-- C2 (counterexample): `"1"` is a valid value document and `'2'` is not
whitespace, yet the document-level parse of `"1" ++ "2"` succeeds (as
`Number 12`) instead of failing — the appended character is absorbed by
the digit run, so "any valid value followed by a non-whitespace character
fails the document-level parse" is false as stated. -/
theorem claim_C2_counterexample :
    json ("1".toList) = .ok [] (Json.number 1) ∧
    isWsChar '2' = false ∧
    json_value ("1".toList ++ "2".toList) = .ok [] (Json.number 12) ∧
    json ("1".toList ++ "2".toList) = .ok [] (Json.number 12) :=
  ⟨rfl, rfl, rfl, rfl⟩

/-- C2 (amended): the document parse succeeds with root `v` exactly when
the value dispatcher succeeds consuming the whole input, and whenever the
value-level parse succeeds but leaves a nonempty remainder the document
parse fails. (Appending a non-whitespace character to a valid value
document does not always fail: the character can extend the value itself,
as in `"1" ++ "2"`.) -/
theorem claim_C2_amended : ∀ (i r : Input) (v : Json),
    (json i = .ok r v ↔ json_value i = .ok [] v ∧ r = []) ∧
    (json_value i = .ok r v → r ≠ [] → json i = .error) :=
  fun _ _ _ => ⟨json_ok_iff, json_trailing⟩

theorem claim_C2_witness :
    json_value ("1x".toList) = .ok ['x'] (Json.number 1) ∧ json ("1x".toList) = .error :=
  ⟨rfl, (claim_C2_amended ("1x".toList) ['x'] (Json.number 1)).2 rfl (by decide)⟩

/-- C3: the value dispatcher attempts the six recognizers in exactly the
order null, boolean, number, string, array, object, returning the result
of the first one that succeeds; a later alternative is consulted only
after every earlier one has failed with a recoverable error. -/
theorem claim_C3_dispatch_order : ∀ i : Input,
    (isOkR (json_null i) → json_value i = json_null i) ∧
    (json_null i = .error → isOkR (json_bool i) → json_value i = json_bool i) ∧
    (json_null i = .error → json_bool i = .error → isOkR (json_number i) →
      json_value i = json_number i) ∧
    (json_null i = .error → json_bool i = .error → json_number i = .error →
      isOkR (json_string i) → json_value i = json_string i) ∧
    (json_null i = .error → json_bool i = .error → json_number i = .error →
      json_string i = .error → isOkR (json_array i) → json_value i = json_array i) ∧
    (json_null i = .error → json_bool i = .error → json_number i = .error →
      json_string i = .error → json_array i = .error → json_value i = json_object i) := by
  intro i
  refine ⟨?_, ?_, ?_, ?_, ?_, ?_⟩
  · intro h
    obtain ⟨r, v, e⟩ := isOkR_dest h
    rw [json_value_eq, e]
    simp only [palt_ok]
  · intro h1 h
    obtain ⟨r, v, e⟩ := isOkR_dest h
    rw [json_value_eq, h1, e]
    simp only [palt_error, palt_ok]
  · intro h1 h2 h
    obtain ⟨r, v, e⟩ := isOkR_dest h
    rw [json_value_eq, h1, h2, e]
    simp only [palt_error, palt_ok]
  · intro h1 h2 h3 h
    obtain ⟨r, v, e⟩ := isOkR_dest h
    rw [json_value_eq, h1, h2, h3, e]
    simp only [palt_error, palt_ok]
  · intro h1 h2 h3 h4 h
    obtain ⟨r, v, e⟩ := isOkR_dest h
    rw [json_value_eq, h1, h2, h3, h4, e]
    simp only [palt_error, palt_ok]
  · intro h1 h2 h3 h4 h5
    rw [json_value_eq, h1, h2, h3, h4, h5]
    simp only [palt_error]

theorem claim_C3_witness :
    json_value ("true".toList) = json_bool ("true".toList) :=
  (claim_C3_dispatch_order ("true".toList)).2.1 rfl
    (by rw [show json_bool ("true".toList) = .ok [] (Json.bool true) from rfl]
        exact isOkR_ok [] (Json.bool true))

/-- C10: a nonempty ASCII digit run whose value fits `u64` is consumed in
full and yields `Number` of its numeric value; leading zeros are accepted
(e.g. `"007"` parses to `Number 7`). -/
theorem claim_C10_leading_zeros : ∀ ds : Input, ds ≠ [] →
    (∀ c ∈ ds, isDigitChar c = true) → digitsVal ds ≤ u64Max →
    json_number ds = .ok [] (Json.number (digitsVal ds)) := by
  intro ds hne hds hfit
  have h := @json_number_span ds [] hne hds (fun c hc => by simp at hc) hfit
  rwa [List.append_nil] at h

theorem claim_C10_witness :
    json_number ("007".toList) = .ok [] (Json.number 7) :=
  claim_C10_leading_zeros ("007".toList) (by decide) (by decide) (by decide)

/-- C7: for any character sequence without a double quote, wrapping it in
quotes parses to exactly that payload — verbatim, no escape processing,
interior whitespace preserved. -/
theorem claim_C7_verbatim_strings : ∀ s : List Char, (∀ c ∈ s, c ≠ '"') →
    string_literal ('"' :: (s ++ ['"'])) = .ok [] s ∧
    json_string ('"' :: (s ++ ['"'])) = .ok [] (Json.string s) := by
  intro s hs
  have h1 : string_literal ('"' :: (s ++ ['"'])) = .ok [] s := by
    apply string_literal_ok_iff.mpr
    refine ⟨rfl, ?_⟩
    intro c hc
    exact beq_eq_false_iff_ne.mpr (hs c hc)
  refine ⟨h1, ?_⟩
  unfold json_string
  rw [h1]
  rfl

theorem claim_C7_witness :
    string_literal ("\"a b\"".toList) = .ok [] ("a b".toList) ∧
    json_string ("\"a b\"".toList) = .ok [] (Json.string ("a b".toList)) :=
  claim_C7_verbatim_strings ("a b".toList) (by decide)

end NomJson

namespace NomJson

/-- C6: an input that opens a string literal but contains no closing quote
makes `string_literal` fail, and no later alternative of the dispatcher
rescues it — the failure propagates through `json_value` to the
document-level `json`. -/
theorem claim_C6_unterminated_string : ∀ i : Input, i.head? = some '"' →
    (∀ c ∈ i.tail, c ≠ '"') →
    string_literal i = .error ∧ json_value i = .error ∧ json i = .error := by
  intro i hh ht
  obtain ⟨t, rfl⟩ : ∃ t, i = '"' :: t := by
    cases i with
    | nil => cases hh
    | cons a t =>
      simp only [List.head?_cons, Option.some.injEq] at hh
      subst hh
      exact ⟨t, rfl⟩
  have ht' : ∀ c ∈ t, c ≠ '"' := ht
  have hsl : string_literal ('"' :: t) = .error := by
    unfold string_literal
    rw [show tagP ['"'] ('"' :: t) = .ok t ['"'] from tagP_self ['"'] t]
    simp only [pbind_ok, takeTill]
    have hall : ∀ c ∈ t, (fun c => !(c == '"')) c = true := by
      intro c hc
      simp [ht' c hc]
    have hdrop : t.dropWhile (fun c => !(c == '"')) = [] := by
      have h2 := dropWhile_append_of_all ([] : Input) hall
      rw [List.append_nil] at h2
      exact h2.trans rfl
    rw [hdrop]
    rfl
  have hnum : json_number ('"' :: t) = .error :=
    json_number_error_head (fun c hc => by
      simp only [List.head?_cons, Option.some.injEq] at hc
      subst hc
      decide)
  have hjs : json_string ('"' :: t) = .error := by
    unfold json_string
    rw [hsl]
    rfl
  have hl : leadChar ('"' :: t) = some '"' := leadChar_of_head (by decide) rfl
  have hv : json_value ('"' :: t) = .error := by
    rw [json_value_eq, json_null_error_head (by simp), json_bool_error_head (by simp) (by simp),
      hnum, hjs, json_array_error_lead (by rw [hl]; simp),
      json_object_error_lead (by rw [hl]; simp)]
    simp
  refine ⟨hsl, hv, ?_⟩
  unfold json
  rw [hv]
  rfl

theorem claim_C6_witness :
    string_literal ("\"abc".toList) = .error ∧
    json_value ("\"abc".toList) = .error ∧ json ("\"abc".toList) = .error :=
  claim_C6_unterminated_string ("\"abc".toList) (by decide) (by decide)

/-- C5: if, inside an array, the element-list parser stops at a position
where (after whitespace) a comma and then the closing bracket follow —
i.e. the last element is followed by a trailing comma — then the array
recognizer fails; likewise for objects before the closing brace.
Separators are accepted strictly between elements. -/
theorem claim_C5_trailing_comma :
    (∀ (i i1 t r : Input) (vs : List Json), wsTag ['['] i = .ok i1 t →
      separated_values i1 = .ok r vs →
      (r.dropWhile isWsChar).head? = some ',' →
      (((r.dropWhile isWsChar).tail).dropWhile isWsChar).head? = some ']' →
      json_array i = .error) ∧
    (∀ (i i1 t r : Input) (ms : List (List Char × Json)), wsTag braceOpen i = .ok i1 t →
      object_members i1 = .ok r ms →
      (r.dropWhile isWsChar).head? = some ',' →
      (((r.dropWhile isWsChar).tail).dropWhile isWsChar).head? = some '\x7d' →
      json_object i = .error) := by
  constructor
  · intro i i1 t r vs h1 h2 h3 h4
    rw [json_array_eq, h1]
    simp only [pbind_ok]
    rw [h2]
    simp only [pbind_ok]
    rw [wsTag_error_head (by rw [h3]; simp)]
    rfl
  · intro i i1 t r ms h1 h2 h3 h4
    rw [json_object_eq, h1]
    simp only [pbind_ok]
    rw [h2]
    simp only [pbind_ok]
    rw [show braceClose = '\x7d' :: ([] : Input) from rfl]
    rw [wsTag_error_head (by rw [h3]; simp)]
    rfl

theorem claim_C5_witness :
    json_array ("[1,2,]".toList) = .error ∧
    json_object ("\x7b\"a\":1,\x7d".toList) = .error :=
  ⟨claim_C5_trailing_comma.1 ("[1,2,]".toList) ("1,2,]".toList) ['['] (",]".toList)
      [Json.number 1, Json.number 2] rfl rfl rfl rfl,
   claim_C5_trailing_comma.2 ("\x7b\"a\":1,\x7d".toList) ("\"a\":1,\x7d".toList) braceOpen
      (",\x7d".toList) [(['a'], Json.number 1)] rfl rfl rfl rfl⟩

theorem sepMembersTailF_prefix : ∀ (n : Nat) (i : Input)
    (acc : List (List Char × Json)) (r : Input) (ms : List (List Char × Json)),
    sepMembersTailF n i acc = .ok r ms → acc <+: ms := by
  intro n
  induction n with
  | zero =>
    intro i acc r ms h
    rw [sepMembersTailF_zero] at h
    cases h
  | succ n ih =>
    intro i acc r ms h
    rw [sepMembersTailF_succ] at h
    rcases wsTag_cases [','] i with ⟨j, h1⟩ | h1 <;> rw [h1] at h
    · simp only [pstep_ok] at h
      by_cases hc : j.length = i.length
      · rw [if_pos hc] at h
        cases h
      · rw [if_neg hc] at h
        cases h2 : objMemberF n j with
        | ok j2 m =>
          rw [h2] at h
          simp only [pstep_ok] at h
          exact (List.prefix_append acc [m]).trans (ih j2 (acc ++ [m]) r ms h)
        | error =>
          rw [h2] at h
          simp only [pstep_error] at h
          injection h with e1 e2
          subst e2
          exact List.prefix_refl _
        | panic => rw [h2] at h; cases h
        | fuelOut => rw [h2] at h; cases h
    · simp only [pstep_error] at h
      injection h with e1 e2
      subst e2
      exact List.prefix_refl _

/-- C4: duplicate object keys are preserved verbatim in encounter order —
`{"a": 1, "a": 2}` parses to the two-pair object, unmerged; and in general
the member-list loop only ever appends to the pairs collected so far, so
pairs appear in the result in encounter order. -/
theorem claim_C4_duplicate_keys :
    json ("\x7b\"a\": 1, \"a\": 2\x7d".toList) =
      .ok [] (Json.object [(['a'], Json.number 1), (['a'], Json.number 2)]) ∧
    (∀ (n : Nat) (i : Input) (acc : List (List Char × Json)) (r : Input)
      (ms : List (List Char × Json)),
      sepMembersTailF n i acc = .ok r ms → acc <+: ms) :=
  ⟨rfl, sepMembersTailF_prefix⟩

theorem claim_C4_witness :
    [(['a'], Json.number 1)] <+: [(['a'], Json.number 1)] :=
  claim_C4_duplicate_keys.2 1 [] [(['a'], Json.number 1)] [] [(['a'], Json.number 1)] rfl

/-- C8: the six recognizers' lead token sets are disjoint — on any input
at most one recognizer of the dispatcher's list succeeds, so the priority
order introduces no ambiguity. -/
theorem claim_C8_lead_tokens_disjoint : ∀ (i : Input) (p q : Input → PResult Json),
    p ∈ recognizers → q ∈ recognizers → isOkR (p i) → isOkR (q i) → p = q :=
  recognizers_disjoint

theorem claim_C8_witness : json_null = json_null :=
  claim_C8_lead_tokens_disjoint ("null".toList) json_null json_null
    (by simp [recognizers]) (by simp [recognizers])
    (by rw [show json_null ("null".toList) = .ok [] Json.null from rfl]
        exact isOkR_ok [] Json.null)
    (by rw [show json_null ("null".toList) = .ok [] Json.null from rfl]
        exact isOkR_ok [] Json.null)

end NomJson

namespace NomJson

theorem ws_not_digit {c : Char} (h : isWsChar c = true) : isDigitChar c = false := by
  by_cases hd : isDigitChar c = true
  · rw [digit_not_ws hd] at h
    cases h
  · simpa using hd

theorem dropWhile_nil_of_all {p : Char → Bool} {l : Input} (h : ∀ c ∈ l, p c = true) :
    l.dropWhile p = [] :=
  List.dropWhile_eq_nil_iff.mpr h

theorem stripped_head {p : Char → Bool} {c : Char} {t : Input}
    (h : (c :: t).dropWhile p = c :: t) : p c = false := by
  by_cases hc : p c = true
  · rw [List.dropWhile_cons, if_pos hc] at h
    have hlen : (t.dropWhile p).length ≤ t.length := (List.dropWhile_suffix p).sublist.length_le
    rw [h] at hlen
    simp only [List.length_cons] at hlen
    omega
  · simpa using hc

theorem dropWhile_strip_append (p : Char → Bool) (j w : Input) :
    ((j.dropWhile p) ++ w).dropWhile p = (j ++ w).dropWhile p := by
  conv_rhs => rw [show j = j.takeWhile p ++ j.dropWhile p from (List.takeWhile_append_dropWhile p j).symm]
  rw [List.append_assoc]
  rw [dropWhile_append_of_all (j.dropWhile p ++ w) (fun c hc => List.mem_takeWhile_imp hc)]

theorem isPrefixOf_ext_false {w : Input} : ∀ (t i : Input),
    (∀ c ∈ t, isWsChar c = false) → (∀ c ∈ w, isWsChar c = true) →
    t.isPrefixOf i = false → t.isPrefixOf (i ++ w) = false := by
  intro t
  induction t with
  | nil =>
    intro i ht hw h
    simp [List.isPrefixOf] at h
  | cons a t' ih =>
    intro i ht hw h
    cases i with
    | nil =>
      cases w with
      | nil => rfl
      | cons b w' =>
        have hab : (a == b) = false := by
          have ha : isWsChar a = false := ht a (by simp)
          have hb : isWsChar b = true := hw b (by simp)
          apply beq_eq_false_iff_ne.mpr
          intro e
          rw [e, hb] at ha
          cases ha
        simp [List.isPrefixOf, hab]
    | cons b i' =>
      rw [List.cons_append]
      cases hab : a == b with
      | false => simp [List.isPrefixOf, hab]
      | true =>
        simp only [List.isPrefixOf, hab, Bool.true_and] at h
        have := ih i' (fun c hc => ht c (by simp [hc])) hw h
        simp [List.isPrefixOf, hab, this]

theorem tagP_ext_ok {t i r x : Input} (w : Input) (h : tagP t i = .ok r x) :
    tagP t (i ++ w) = .ok (r ++ w) x := by
  obtain ⟨rfl, rfl⟩ := tagP_ok_iff.mp h
  rw [List.append_assoc]
  exact tagP_self x (r ++ w)

theorem tagP_ext_error {t i w : Input} (hw : ∀ c ∈ w, isWsChar c = true)
    (ht : ∀ c ∈ t, isWsChar c = false) (h : tagP t i = .error) :
    tagP t (i ++ w) = .error := by
  unfold tagP at h ⊢
  by_cases hp : t.isPrefixOf i
  · rw [if_pos hp] at h
    cases h
  · have hp' : t.isPrefixOf i = false := by
      simp only [Bool.not_eq_true] at hp
      exact hp
    rw [isPrefixOf_ext_false t i ht hw hp']
    rfl

theorem strip_append_of_strip_nil {i w : Input} (hw : ∀ c ∈ w, isWsChar c = true)
    (hd : i.dropWhile isWsChar = []) : (i ++ w).dropWhile isWsChar = [] := by
  have hi : ∀ c ∈ i, isWsChar c = true := List.dropWhile_eq_nil_iff.mp hd
  apply dropWhile_nil_of_all
  intro c hc
  rcases List.mem_append.mp hc with hc | hc
  · exact hi c hc
  · exact hw c hc

theorem strip_append_of_strip_cons {i w : Input} {c : Char} {t2 : Input}
    (hd : i.dropWhile isWsChar = c :: t2) :
    (i ++ w).dropWhile isWsChar = (c :: t2) ++ w := by
  have hc : isWsChar c = false := dropWhile_head_false (by rw [hd]; rfl)
  conv_lhs => rw [show i = i.takeWhile isWsChar ++ i.dropWhile isWsChar from
    (List.takeWhile_append_dropWhile isWsChar i).symm, hd]
  rw [List.append_assoc]
  rw [dropWhile_append_of_all ((c :: t2) ++ w) (fun a ha => List.mem_takeWhile_imp ha)]
  rw [List.cons_append]
  exact dropWhile_cons_false hc

theorem wsTag_ext_ok {t i r x : Input} {w : Input} (hw : ∀ c ∈ w, isWsChar c = true)
    (h : wsTag t i = .ok r x) :
    wsTag t (i ++ w) = .ok ((r ++ w).dropWhile isWsChar) x := by
  obtain ⟨j, hj, rfl⟩ := wsTag_ok_iff.mp h
  cases hd : i.dropWhile isWsChar with
  | nil =>
    rw [hd] at hj
    obtain ⟨rfl, he⟩ := tagP_ok_iff.mp hj
    have ht0 : x = [] := by
      cases x with
      | nil => rfl
      | cons a b => cases he
    subst ht0
    have hj0 : j = [] := by simpa using he.symm
    subst hj0
    apply wsTag_ok_iff.mpr
    refine ⟨[], ?_, ?_⟩
    · rw [strip_append_of_strip_nil hw hd]
      rfl
    · simp only [List.dropWhile_nil, List.nil_append]
      exact dropWhile_nil_of_all hw
  | cons c t2 =>
    rw [hd] at hj
    apply wsTag_ok_iff.mpr
    refine ⟨j ++ w, ?_, (dropWhile_strip_append isWsChar j w)⟩
    rw [strip_append_of_strip_cons hd, ← hd]
    rw [hd]
    exact tagP_ext_ok w hj

theorem wsTag_ext_error {t i : Input} {w : Input} (hw : ∀ c ∈ w, isWsChar c = true)
    (ht : ∀ c ∈ t, isWsChar c = false) (h : wsTag t i = .error) :
    wsTag t (i ++ w) = .error := by
  have hj := wsTag_error_iff.mp h
  apply wsTag_error_iff.mpr
  cases hd : i.dropWhile isWsChar with
  | nil =>
    rw [hd] at hj
    rw [strip_append_of_strip_nil hw hd]
    exact hj
  | cons c t2 =>
    rw [hd] at hj
    rw [strip_append_of_strip_cons hd]
    exact tagP_ext_error hw ht hj

end NomJson

namespace NomJson

theorem digit1_ext_ok {i r ds : Input} {w : Input} (hw : ∀ c ∈ w, isWsChar c = true)
    (h : digit1 i = .ok r ds) : digit1 (i ++ w) = .ok (r ++ w) ds := by
  obtain ⟨rfl, hne, rfl⟩ := digit1_ok_iff.mp h
  have hds : ∀ c ∈ i.takeWhile isDigitChar, isDigitChar c = true :=
    fun c hc => List.mem_takeWhile_imp hc
  have hsplit : i = i.takeWhile isDigitChar ++ i.dropWhile isDigitChar :=
    (List.takeWhile_append_dropWhile isDigitChar i).symm
  apply digit1_ok_iff.mpr
  have htw : ((i.dropWhile isDigitChar) ++ w).takeWhile isDigitChar = [] := by
    cases hd : i.dropWhile isDigitChar with
    | nil =>
      simp only [List.nil_append]
      cases w with
      | nil => rfl
      | cons b w' => exact takeWhile_cons_false (ws_not_digit (hw b (by simp)))
    | cons c t2 =>
      have hc : isDigitChar c = false := dropWhile_head_false (by rw [hd]; rfl)
      rw [List.cons_append]
      exact takeWhile_cons_false hc
  have hdw : ((i.dropWhile isDigitChar) ++ w).dropWhile isDigitChar =
      i.dropWhile isDigitChar ++ w := by
    cases hd : i.dropWhile isDigitChar with
    | nil =>
      simp only [List.nil_append]
      cases w with
      | nil => rfl
      | cons b w' => exact dropWhile_cons_false (ws_not_digit (hw b (by simp)))
    | cons c t2 =>
      have hc : isDigitChar c = false := dropWhile_head_false (by rw [hd]; rfl)
      rw [List.cons_append]
      rw [dropWhile_cons_false hc]
  have key1 : (i ++ w).takeWhile isDigitChar = i.takeWhile isDigitChar := by
    conv_lhs => rw [hsplit]
    rw [List.append_assoc, takeWhile_append_of_all _ hds, htw, List.append_nil]
  have key2 : (i ++ w).dropWhile isDigitChar = i.dropWhile isDigitChar ++ w := by
    conv_lhs => rw [hsplit]
    rw [List.append_assoc, dropWhile_append_of_all _ hds, hdw]
  exact ⟨key1.symm, hne, key2.symm⟩

theorem digit1_ext_error {i : Input} {w : Input} (hw : ∀ c ∈ w, isWsChar c = true)
    (h : digit1 i = .error) : digit1 (i ++ w) = .error := by
  cases i with
  | nil =>
    simp only [List.nil_append]
    apply digit1_error_head
    intro c hc
    cases w with
    | nil => cases hc
    | cons b w' =>
      simp only [List.head?_cons, Option.some.injEq] at hc
      subst hc
      exact ws_not_digit (hw b (by simp))
  | cons a t =>
    have ha : isDigitChar a = false := by
      by_cases hd : isDigitChar a = true
      · unfold digit1 at h
        rw [List.takeWhile_cons, if_pos hd] at h
        simp at h
      · simpa using hd
    rw [List.cons_append]
    apply digit1_error_head
    intro c hc
    simp only [List.head?_cons, Option.some.injEq] at hc
    subst hc
    exact ha

theorem json_number_ext_ok {i r : Input} {v : Json} {w : Input}
    (hw : ∀ c ∈ w, isWsChar c = true) (h : json_number i = .ok r v) :
    json_number (i ++ w) = .ok (r ++ w) v := by
  unfold json_number at h ⊢
  cases h1 : digit1 i with
  | ok r1 ds =>
    rw [h1] at h
    simp only [pbind_ok] at h
    rw [digit1_ext_ok hw h1]
    simp only [pbind_ok]
    by_cases hfit : digitsVal ds ≤ u64Max
    · rw [if_pos hfit] at h ⊢
      injection h with e1 e2
      subst e1
      subst e2
      rfl
    · rw [if_neg hfit] at h
      cases h
  | error => rw [h1] at h; cases h
  | panic => rw [h1] at h; cases h
  | fuelOut => rw [h1] at h; cases h

theorem json_number_ext_error {i : Input} {w : Input}
    (hw : ∀ c ∈ w, isWsChar c = true) (h : json_number i = .error) :
    json_number (i ++ w) = .error := by
  unfold json_number at h ⊢
  cases h1 : digit1 i with
  | ok r1 ds =>
    rw [h1] at h
    simp only [pbind_ok] at h
    by_cases hfit : digitsVal ds ≤ u64Max
    · rw [if_pos hfit] at h
      cases h
    · rw [if_neg hfit] at h
      cases h
  | error =>
    rw [digit1_ext_error hw h1]
    rfl
  | panic => rw [h1] at h; cases h
  | fuelOut => rw [h1] at h; cases h

theorem json_number_ext_panic {i : Input} {w : Input}
    (hw : ∀ c ∈ w, isWsChar c = true) (h : json_number i = .panic) :
    json_number (i ++ w) = .panic := by
  unfold json_number at h ⊢
  cases h1 : digit1 i with
  | ok r1 ds =>
    rw [h1] at h
    simp only [pbind_ok] at h
    rw [digit1_ext_ok hw h1]
    simp only [pbind_ok]
    by_cases hfit : digitsVal ds ≤ u64Max
    · rw [if_pos hfit] at h
      cases h
    · rw [if_neg hfit]
  | error => rw [h1] at h; cases h
  | panic =>
    rcases digit1_cases i with ⟨r, ds, hd⟩ | hd <;> rw [h1] at hd <;> cases hd
  | fuelOut =>
    rcases digit1_cases i with ⟨r, ds, hd⟩ | hd <;> rw [h1] at hd <;> cases hd

theorem json_null_ext_ok {i r : Input} {v : Json} (w : Input)
    (h : json_null i = .ok r v) : json_null (i ++ w) = .ok (r ++ w) v := by
  obtain ⟨rfl, rfl⟩ := json_null_ok_dest h
  unfold json_null
  rw [List.append_assoc, tagP_self]
  rfl

theorem json_null_ext_error {i : Input} {w : Input}
    (hw : ∀ c ∈ w, isWsChar c = true) (h : json_null i = .error) :
    json_null (i ++ w) = .error := by
  unfold json_null at h ⊢
  cases h1 : tagP ("null".toList) i with
  | ok j x => rw [h1] at h; cases h
  | error =>
    rw [tagP_ext_error hw (by decide) h1]
    rfl
  | panic => rw [h1] at h; cases h
  | fuelOut => rw [h1] at h; cases h

theorem json_bool_ext_ok {i r : Input} {v : Json} (w : Input)
    (h : json_bool i = .ok r v) : json_bool (i ++ w) = .ok (r ++ w) v := by
  rcases json_bool_ok_dest h with ⟨rfl, rfl⟩ | ⟨rfl, rfl⟩
  · unfold json_bool
    rw [List.append_assoc, tagP_self]
    rfl
  · unfold json_bool
    have hfalse : tagP ("true".toList) ("false".toList ++ (r ++ w)) = .error := by
      apply tagP_error_head
      simp
    rw [List.append_assoc, hfalse, tagP_self]
    rfl

theorem json_bool_ext_error {i : Input} {w : Input}
    (hw : ∀ c ∈ w, isWsChar c = true) (h : json_bool i = .error) :
    json_bool (i ++ w) = .error := by
  unfold json_bool at h ⊢
  cases h1 : tagP ("true".toList) i with
  | ok j x => rw [h1] at h; simp only [pmap_ok, palt_ok] at h; cases h
  | error =>
    rw [h1] at h
    simp only [pmap_error, palt_error] at h
    rw [tagP_ext_error hw (by decide) h1]
    simp only [pmap_error, palt_error]
    cases h2 : tagP ("false".toList) i with
    | ok j x => rw [h2] at h; cases h
    | error =>
      rw [tagP_ext_error hw (by decide) h2]
      rfl
    | panic => rw [h2] at h; cases h
    | fuelOut => rw [h2] at h; cases h
  | panic => rw [h1] at h; simp only [pmap_panic, palt_panic] at h; cases h
  | fuelOut => rw [h1] at h; cases h

theorem string_literal_ext_ok {i r s : Input} (w : Input)
    (h : string_literal i = .ok r s) : string_literal (i ++ w) = .ok (r ++ w) s := by
  obtain ⟨rfl, hs⟩ := string_literal_ok_iff.mp h
  apply string_literal_ok_iff.mpr
  refine ⟨?_, hs⟩
  simp

theorem string_literal_ext_error {i : Input} {w : Input}
    (hw : ∀ c ∈ w, isWsChar c = true) (h : string_literal i = .error) :
    string_literal (i ++ w) = .error := by
  unfold string_literal at h ⊢
  cases h1 : tagP ['"'] i with
  | ok j x =>
    rw [h1] at h
    simp only [pbind_ok, takeTill] at h
    cases h2 : tagP ['"'] (j.dropWhile (fun c => !(c == '"'))) with
    | ok j2 x2 => rw [h2] at h; cases h
    | error =>
      have hnq : j.dropWhile (fun c => !(c == '"')) = [] := by
        cases hd : j.dropWhile (fun c => !(c == '"')) with
        | nil => rfl
        | cons c t2 =>
          have hc : (fun c => !(c == '"')) c = false := dropWhile_head_false (by rw [hd]; rfl)
          simp only [Bool.not_eq_false', beq_iff_eq] at hc
          subst hc
          rw [hd] at h2
          rw [show tagP ['"'] ('"' :: t2) = .ok t2 ['"'] from tagP_self ['"'] t2] at h2
          cases h2
      rw [tagP_ext_ok w h1]
      simp only [pbind_ok, takeTill]
      have hall : ∀ c ∈ j, (fun c => !(c == '"')) c = true :=
        List.dropWhile_eq_nil_iff.mp hnq
      have hallw : ∀ c ∈ w, (fun c => !(c == '"')) c = true := by
        intro c hc
        have hws := hw c hc
        have hq : c ≠ '"' := by
          intro e
          rw [e] at hws
          exact absurd hws (by decide)
        simp [hq]
      have hdw : (j ++ w).dropWhile (fun c => !(c == '"')) = [] := by
        apply dropWhile_nil_of_all
        intro c hc
        rcases List.mem_append.mp hc with hc | hc
        · exact hall c hc
        · exact hallw c hc
      rw [hdw]
      rfl
    | panic => rw [h2] at h; cases h
    | fuelOut => rw [h2] at h; cases h
  | error =>
    rw [tagP_ext_error hw (by decide) h1]
    rfl
  | panic => rw [h1] at h; cases h
  | fuelOut => rw [h1] at h; cases h

end NomJson

namespace NomJson

theorem json_string_ext_ok {i r : Input} {v : Json} (w : Input)
    (h : json_string i = .ok r v) : json_string (i ++ w) = .ok (r ++ w) v := by
  obtain ⟨s, rfl, hs⟩ := json_string_ok_dest h
  unfold json_string
  rw [string_literal_ext_ok w hs]
  rfl

theorem json_string_ext_error {i : Input} {w : Input}
    (hw : ∀ c ∈ w, isWsChar c = true) (h : json_string i = .error) :
    json_string (i ++ w) = .error := by
  unfold json_string at h ⊢
  cases h1 : string_literal i with
  | ok j s => rw [h1] at h; cases h
  | error =>
    rw [string_literal_ext_error hw h1]
    rfl
  | panic =>
    rcases string_literal_cases i with ⟨j, s, hd⟩ | hd <;> rw [h1] at hd <;> cases hd
  | fuelOut =>
    rcases string_literal_cases i with ⟨j, s, hd⟩ | hd <;> rw [h1] at hd <;> cases hd

theorem jsonArrayF_nil : ∀ n : Nat, jsonArrayF n [] = .error ∨ jsonArrayF n [] = .fuelOut := by
  intro n
  cases n with
  | zero => exact Or.inr rfl
  | succ n =>
    left
    rw [jsonArrayF_succ]
    rw [show wsTag ['['] ([] : Input) = .error from rfl]
    rfl

theorem jsonObjectF_nil : ∀ n : Nat, jsonObjectF n [] = .error ∨ jsonObjectF n [] = .fuelOut := by
  intro n
  cases n with
  | zero => exact Or.inr rfl
  | succ n =>
    left
    rw [jsonObjectF_succ]
    rw [show wsTag braceOpen ([] : Input) = .error from rfl]
    rfl

theorem jsonValueF_nil : ∀ n : Nat, jsonValueF n [] = .error ∨ jsonValueF n [] = .fuelOut := by
  intro n
  cases n with
  | zero => exact Or.inr rfl
  | succ n =>
    rw [jsonValueF_succ]
    rw [show json_null ([] : Input) = .error from rfl,
      show json_bool ([] : Input) = .error from rfl,
      show json_number ([] : Input) = .error from rfl,
      show json_string ([] : Input) = .error from rfl]
    simp only [palt_error]
    rcases jsonArrayF_nil n with ha | ha <;> rw [ha]
    · simp only [palt_error]
      rcases jsonObjectF_nil n with ho | ho <;> rw [ho]
      · exact Or.inl rfl
      · exact Or.inr rfl
    · exact Or.inr rfl

theorem sepValuesF_nil : ∀ n : Nat, sepValuesF n [] = .ok [] [] ∨ sepValuesF n [] = .fuelOut := by
  intro n
  cases n with
  | zero => exact Or.inr rfl
  | succ n =>
    rw [sepValuesF_succ]
    rcases jsonValueF_nil n with hv | hv <;> rw [hv]
    · exact Or.inl rfl
    · exact Or.inr rfl

theorem objMemberF_nil : ∀ n : Nat, objMemberF n [] = .error ∨ objMemberF n [] = .fuelOut := by
  intro n
  cases n with
  | zero => exact Or.inr rfl
  | succ n =>
    left
    rw [objMemberF_succ]
    rw [show string_literal ([] : Input) = .error from rfl]
    rfl

theorem sepMembersF_nil : ∀ n : Nat,
    sepMembersF n [] = .ok [] [] ∨ sepMembersF n [] = .fuelOut := by
  intro n
  cases n with
  | zero => exact Or.inr rfl
  | succ n =>
    rw [sepMembersF_succ]
    rcases objMemberF_nil n with hv | hv <;> rw [hv]
    · exact Or.inl rfl
    · exact Or.inr rfl

/-- Relation between the result of a recognizer on `i` and on `i ++ w` for
whitespace-only `w`: a success keeps the value and the rest is either
extended by `w` verbatim or additionally stripped of the whitespace that a
trailing `multispace0` at the boundary absorbed; failures are preserved. -/
def ExtRes {α : Type} (w : Input) (x x' : PResult α) : Prop :=
  (∀ r v, x = .ok r v →
    x' = .ok (r ++ w) v ∨ x' = .ok ((r ++ w).dropWhile isWsChar) v) ∧
  (x = .error → x' = .error) ∧
  (x = .panic → x' = .panic)

/-- Strengthening of `ExtRes` for recognizers that end in a whitespace
wrapper (`json_array`, `json_object`): the rest is always the stripped
form. -/
def ExtResStrip {α : Type} (w : Input) (x x' : PResult α) : Prop :=
  (∀ r v, x = .ok r v → x' = .ok ((r ++ w).dropWhile isWsChar) v) ∧
  (x = .error → x' = .error) ∧
  (x = .panic → x' = .panic)

theorem ExtResStrip.toExtRes {α : Type} {w : Input} {x x' : PResult α}
    (h : ExtResStrip w x x') : ExtRes w x x' :=
  ⟨fun r v hr => Or.inr (h.1 r v hr), h.2.1, h.2.2⟩

theorem ExtRes_ok_left {α : Type} {w a : Input} {b : α} {x' : PResult α}
    (h : x' = .ok (a ++ w) b) : ExtRes w (.ok a b) x' := by
  refine ⟨?_, ?_, ?_⟩
  · intro r v hr
    injection hr with e1 e2
    subst e1
    subst e2
    exact Or.inl h
  · intro hr
    cases hr
  · intro hr
    cases hr

theorem ExtRes_ok_strip {α : Type} {w a : Input} {b : α} {x' : PResult α}
    (h : x' = .ok ((a ++ w).dropWhile isWsChar) b) : ExtRes w (.ok a b) x' := by
  refine ⟨?_, ?_, ?_⟩
  · intro r v hr
    injection hr with e1 e2
    subst e1
    subst e2
    exact Or.inr h
  · intro hr
    cases hr
  · intro hr
    cases hr

theorem ExtRes_ok_loose {α : Type} {w i i' : Input} {b : α}
    (hrel : i' = i ++ w ∨ i' = (i ++ w).dropWhile isWsChar) :
    ExtRes w (.ok i b) (.ok i' b) := by
  refine ⟨?_, ?_, ?_⟩
  · intro r v hr
    injection hr with e1 e2
    subst e1
    subst e2
    rcases hrel with rfl | rfl
    · exact Or.inl rfl
    · exact Or.inr rfl
  · intro hr
    cases hr
  · intro hr
    cases hr

theorem ExtRes_error {α : Type} {w : Input} {x' : PResult α} (h : x' = .error) :
    ExtRes w .error x' := by
  refine ⟨?_, fun _ => h, ?_⟩
  · intro r v hr
    cases hr
  · intro hr
    cases hr

theorem ExtRes_panic {α : Type} {w : Input} {x' : PResult α} (h : x' = .panic) :
    ExtRes w .panic x' := by
  refine ⟨?_, ?_, fun _ => h⟩
  · intro r v hr
    cases hr
  · intro hr
    cases hr

theorem ExtRes_fuelOut {α : Type} {w : Input} (x' : PResult α) :
    ExtRes w .fuelOut x' := by
  refine ⟨?_, ?_, ?_⟩
  · intro r v hr
    cases hr
  · intro hr
    cases hr
  · intro hr
    cases hr

theorem ExtResStrip_ok {α : Type} {w a : Input} {b : α} {x' : PResult α}
    (h : x' = .ok ((a ++ w).dropWhile isWsChar) b) : ExtResStrip w (.ok a b) x' := by
  refine ⟨?_, ?_, ?_⟩
  · intro r v hr
    injection hr with e1 e2
    subst e1
    subst e2
    exact h
  · intro hr
    cases hr
  · intro hr
    cases hr

theorem ExtResStrip_error {α : Type} {w : Input} {x' : PResult α} (h : x' = .error) :
    ExtResStrip w .error x' := by
  refine ⟨?_, fun _ => h, ?_⟩
  · intro r v hr
    cases hr
  · intro hr
    cases hr

theorem ExtResStrip_panic {α : Type} {w : Input} {x' : PResult α} (h : x' = .panic) :
    ExtResStrip w .panic x' := by
  refine ⟨?_, ?_, fun _ => h⟩
  · intro r v hr
    cases hr
  · intro hr
    cases hr

theorem ExtResStrip_fuelOut {α : Type} {w : Input} (x' : PResult α) :
    ExtResStrip w .fuelOut x' := by
  refine ⟨?_, ?_, ?_⟩
  · intro r v hr
    cases hr
  · intro hr
    cases hr
  · intro hr
    cases hr

end NomJson

namespace NomJson

theorem extAll (w : Input) (hw : ∀ c ∈ w, isWsChar c = true) : ∀ n : Nat,
    (∀ i, ExtRes w (jsonValueF n i) (jsonValueF n (i ++ w))) ∧
    (∀ i, ExtResStrip w (jsonArrayF n i) (jsonArrayF n (i ++ w))) ∧
    (∀ i, ExtResStrip w (jsonObjectF n i) (jsonObjectF n (i ++ w))) ∧
    (∀ i, ExtRes w (sepValuesF n i) (sepValuesF n (i ++ w))) ∧
    (∀ i i', (i' = i ++ w ∨ i' = (i ++ w).dropWhile isWsChar) → ∀ acc,
      ExtRes w (sepValuesTailF n i acc) (sepValuesTailF n i' acc)) ∧
    (∀ i, ExtRes w (objMemberF n i) (objMemberF n (i ++ w))) ∧
    (∀ i, ExtRes w (sepMembersF n i) (sepMembersF n (i ++ w))) ∧
    (∀ i i', (i' = i ++ w ∨ i' = (i ++ w).dropWhile isWsChar) → ∀ acc,
      ExtRes w (sepMembersTailF n i acc) (sepMembersTailF n i' acc)) := by
  intro n
  induction n with
  | zero =>
    refine ⟨?_, ?_, ?_, ?_, ?_, ?_, ?_, ?_⟩
    · intro i
      simp only [jsonValueF_zero]
      exact ExtRes_fuelOut _
    · intro i
      simp only [jsonArrayF_zero]
      exact ExtResStrip_fuelOut _
    · intro i
      simp only [jsonObjectF_zero]
      exact ExtResStrip_fuelOut _
    · intro i
      simp only [sepValuesF_zero]
      exact ExtRes_fuelOut _
    · intro i i' hrel acc
      simp only [sepValuesTailF_zero]
      exact ExtRes_fuelOut _
    · intro i
      simp only [objMemberF_zero]
      exact ExtRes_fuelOut _
    · intro i
      simp only [sepMembersF_zero]
      exact ExtRes_fuelOut _
    · intro i i' hrel acc
      simp only [sepMembersTailF_zero]
      exact ExtRes_fuelOut _
  | succ n ih =>
    obtain ⟨ihV, ihA, ihO, ihS, ihT, ihB, ihM, ihN⟩ := ih
    have hV : ∀ i, ExtRes w (jsonValueF (n + 1) i) (jsonValueF (n + 1) (i ++ w)) := by
      intro i
      simp only [jsonValueF_succ]
      rcases json_null_cases i with ⟨r1, v1, h1⟩ | h1
      · rw [h1, json_null_ext_ok w h1]
        simp only [palt_ok]
        exact ExtRes_ok_left rfl
      · rw [h1, json_null_ext_error hw h1]
        simp only [palt_error]
        rcases json_bool_cases i with ⟨r1, v1, h2⟩ | h2
        · rw [h2, json_bool_ext_ok w h2]
          simp only [palt_ok]
          exact ExtRes_ok_left rfl
        · rw [h2, json_bool_ext_error hw h2]
          simp only [palt_error]
          rcases json_number_cases i with ⟨r1, v1, h3⟩ | h3 | h3
          · rw [h3, json_number_ext_ok hw h3]
            simp only [palt_ok]
            exact ExtRes_ok_left rfl
          · rw [h3, json_number_ext_error hw h3]
            simp only [palt_error]
            rcases json_string_cases i with ⟨r1, v1, h4⟩ | h4
            · rw [h4, json_string_ext_ok w h4]
              simp only [palt_ok]
              exact ExtRes_ok_left rfl
            · rw [h4, json_string_ext_error hw h4]
              simp only [palt_error]
              have ihAi := ihA i
              cases h5 : jsonArrayF n i with
              | ok r5 v5 =>
                rw [ihAi.1 r5 v5 h5]
                simp only [palt_ok]
                exact ExtRes_ok_strip rfl
              | error =>
                rw [ihAi.2.1 h5]
                simp only [palt_error]
                exact (ihO i).toExtRes
              | panic =>
                rw [ihAi.2.2 h5]
                simp only [palt_panic]
                exact ExtRes_panic rfl
              | fuelOut =>
                simp only [palt_fuelOut]
                exact ExtRes_fuelOut _
          · rw [h3, json_number_ext_panic hw h3]
            simp only [palt_panic]
            exact ExtRes_panic rfl
    have hA : ∀ i, ExtResStrip w (jsonArrayF (n + 1) i) (jsonArrayF (n + 1) (i ++ w)) := by
      intro i
      simp only [jsonArrayF_succ]
      rcases wsTag_cases ['['] i with ⟨j, h1⟩ | h1
      · rw [h1, wsTag_ext_ok hw h1]
        simp only [pbind_ok]
        have hjstr : j.dropWhile isWsChar = j := wsTag_stripped h1
        cases j with
        | nil =>
          rw [show ((([] : Input) ++ w).dropWhile isWsChar) = ([] : Input) from by
            rw [List.nil_append]; exact dropWhile_nil_of_all hw]
          rcases sepValuesF_nil n with h2 | h2 <;> rw [h2]
          · simp only [pbind_ok]
            rw [show wsTag [']'] ([] : Input) = .error from rfl]
            simp only [pbind_error]
            exact ExtResStrip_error rfl
          · simp only [pbind_fuelOut]
            exact ExtResStrip_fuelOut _
        | cons c t2 =>
          have hc : isWsChar c = false := stripped_head hjstr
          rw [show (((c :: t2) ++ w).dropWhile isWsChar) = (c :: t2) ++ w from by
            rw [List.cons_append]; exact dropWhile_cons_false hc]
          have ihSj := ihS (c :: t2)
          cases h2 : sepValuesF n (c :: t2) with
          | ok j2 vs =>
            rcases ihSj.1 j2 vs h2 with h2' | h2' <;> rw [h2']
            · simp only [pbind_ok]
              rcases wsTag_cases [']'] j2 with ⟨j3, h3⟩ | h3
              · rw [h3, wsTag_ext_ok hw h3]
                simp only [pbind_ok]
                exact ExtResStrip_ok rfl
              · rw [h3, wsTag_ext_error hw (by decide) h3]
                simp only [pbind_error]
                exact ExtResStrip_error rfl
            · simp only [pbind_ok]
              rw [wsTag_dropWhile [']'] (j2 ++ w)]
              rcases wsTag_cases [']'] j2 with ⟨j3, h3⟩ | h3
              · rw [h3, wsTag_ext_ok hw h3]
                simp only [pbind_ok]
                exact ExtResStrip_ok rfl
              · rw [h3, wsTag_ext_error hw (by decide) h3]
                simp only [pbind_error]
                exact ExtResStrip_error rfl
          | error =>
            rw [ihSj.2.1 h2]
            simp only [pbind_error]
            exact ExtResStrip_error rfl
          | panic =>
            rw [ihSj.2.2 h2]
            simp only [pbind_panic]
            exact ExtResStrip_panic rfl
          | fuelOut =>
            simp only [pbind_fuelOut]
            exact ExtResStrip_fuelOut _
      · rw [h1, wsTag_ext_error hw (by decide) h1]
        simp only [pbind_error]
        exact ExtResStrip_error rfl
    have hO : ∀ i, ExtResStrip w (jsonObjectF (n + 1) i) (jsonObjectF (n + 1) (i ++ w)) := by
      intro i
      simp only [jsonObjectF_succ]
      rcases wsTag_cases braceOpen i with ⟨j, h1⟩ | h1
      · rw [h1, wsTag_ext_ok hw h1]
        simp only [pbind_ok]
        have hjstr : j.dropWhile isWsChar = j := wsTag_stripped h1
        cases j with
        | nil =>
          rw [show ((([] : Input) ++ w).dropWhile isWsChar) = ([] : Input) from by
            rw [List.nil_append]; exact dropWhile_nil_of_all hw]
          rcases sepMembersF_nil n with h2 | h2 <;> rw [h2]
          · simp only [pbind_ok]
            rw [show wsTag braceClose ([] : Input) = .error from rfl]
            simp only [pbind_error]
            exact ExtResStrip_error rfl
          · simp only [pbind_fuelOut]
            exact ExtResStrip_fuelOut _
        | cons c t2 =>
          have hc : isWsChar c = false := stripped_head hjstr
          rw [show (((c :: t2) ++ w).dropWhile isWsChar) = (c :: t2) ++ w from by
            rw [List.cons_append]; exact dropWhile_cons_false hc]
          have ihMj := ihM (c :: t2)
          cases h2 : sepMembersF n (c :: t2) with
          | ok j2 ms =>
            rcases ihMj.1 j2 ms h2 with h2' | h2' <;> rw [h2']
            · simp only [pbind_ok]
              rcases wsTag_cases braceClose j2 with ⟨j3, h3⟩ | h3
              · rw [h3, wsTag_ext_ok hw h3]
                simp only [pbind_ok]
                exact ExtResStrip_ok rfl
              · rw [h3, wsTag_ext_error hw (by decide) h3]
                simp only [pbind_error]
                exact ExtResStrip_error rfl
            · simp only [pbind_ok]
              rw [wsTag_dropWhile braceClose (j2 ++ w)]
              rcases wsTag_cases braceClose j2 with ⟨j3, h3⟩ | h3
              · rw [h3, wsTag_ext_ok hw h3]
                simp only [pbind_ok]
                exact ExtResStrip_ok rfl
              · rw [h3, wsTag_ext_error hw (by decide) h3]
                simp only [pbind_error]
                exact ExtResStrip_error rfl
          | error =>
            rw [ihMj.2.1 h2]
            simp only [pbind_error]
            exact ExtResStrip_error rfl
          | panic =>
            rw [ihMj.2.2 h2]
            simp only [pbind_panic]
            exact ExtResStrip_panic rfl
          | fuelOut =>
            simp only [pbind_fuelOut]
            exact ExtResStrip_fuelOut _
      · rw [h1, wsTag_ext_error hw (by decide) h1]
        simp only [pbind_error]
        exact ExtResStrip_error rfl
    have hS : ∀ i, ExtRes w (sepValuesF (n + 1) i) (sepValuesF (n + 1) (i ++ w)) := by
      intro i
      simp only [sepValuesF_succ]
      have ihVi := ihV i
      cases h1 : jsonValueF n i with
      | ok i1 v =>
        rcases ihVi.1 i1 v h1 with h1' | h1' <;> rw [h1']
        · simp only [pstep_ok]
          exact ihT i1 (i1 ++ w) (Or.inl rfl) [v]
        · simp only [pstep_ok]
          exact ihT i1 ((i1 ++ w).dropWhile isWsChar) (Or.inr rfl) [v]
      | error =>
        rw [ihVi.2.1 h1]
        simp only [pstep_error]
        exact ExtRes_ok_loose (Or.inl rfl)
      | panic =>
        rw [ihVi.2.2 h1]
        simp only [pstep_panic]
        exact ExtRes_panic rfl
      | fuelOut =>
        simp only [pstep_fuelOut]
        exact ExtRes_fuelOut _
    have hT : ∀ i i', (i' = i ++ w ∨ i' = (i ++ w).dropWhile isWsChar) → ∀ acc,
        ExtRes w (sepValuesTailF (n + 1) i acc) (sepValuesTailF (n + 1) i' acc) := by
      intro i i' hrel acc
      simp only [sepValuesTailF_succ]
      have hws : wsTag [','] i' = wsTag [','] (i ++ w) := by
        rcases hrel with rfl | rfl
        · rfl
        · exact wsTag_dropWhile [','] (i ++ w)
      rcases wsTag_cases [','] i with ⟨j, h1⟩ | h1
      · have h1' : wsTag [','] i' = .ok ((j ++ w).dropWhile isWsChar) [','] := by
          rw [hws]
          exact wsTag_ext_ok hw h1
        rw [h1, h1']
        simp only [pstep_ok]
        have hlt : j.length < i.length := wsTag_lt (by simp) h1
        have hlt' : ((j ++ w).dropWhile isWsChar).length < i'.length := wsTag_lt (by simp) h1'
        rw [if_neg (show ¬(j.length = i.length) by omega),
          if_neg (show ¬(((j ++ w).dropWhile isWsChar).length = i'.length) by omega)]
        have hjstr : j.dropWhile isWsChar = j := wsTag_stripped h1
        cases j with
        | nil =>
          rw [show ((([] : Input) ++ w).dropWhile isWsChar) = ([] : Input) from by
            rw [List.nil_append]; exact dropWhile_nil_of_all hw]
          rcases jsonValueF_nil n with h2 | h2 <;> rw [h2]
          · simp only [pstep_error]
            exact ExtRes_ok_loose hrel
          · simp only [pstep_fuelOut]
            exact ExtRes_fuelOut _
        | cons c t2 =>
          have hc : isWsChar c = false := stripped_head hjstr
          rw [show (((c :: t2) ++ w).dropWhile isWsChar) = (c :: t2) ++ w from by
            rw [List.cons_append]; exact dropWhile_cons_false hc]
          have ihVj := ihV (c :: t2)
          cases h2 : jsonValueF n (c :: t2) with
          | ok i2 v =>
            rcases ihVj.1 i2 v h2 with h2' | h2' <;> rw [h2']
            · simp only [pstep_ok]
              exact ihT i2 (i2 ++ w) (Or.inl rfl) (acc ++ [v])
            · simp only [pstep_ok]
              exact ihT i2 ((i2 ++ w).dropWhile isWsChar) (Or.inr rfl) (acc ++ [v])
          | error =>
            rw [ihVj.2.1 h2]
            simp only [pstep_error]
            exact ExtRes_ok_loose hrel
          | panic =>
            rw [ihVj.2.2 h2]
            simp only [pstep_panic]
            exact ExtRes_panic rfl
          | fuelOut =>
            simp only [pstep_fuelOut]
            exact ExtRes_fuelOut _
      · have h1' : wsTag [','] i' = .error := by
          rw [hws]
          exact wsTag_ext_error hw (by decide) h1
        rw [h1, h1']
        simp only [pstep_error]
        exact ExtRes_ok_loose hrel
    have hB : ∀ i, ExtRes w (objMemberF (n + 1) i) (objMemberF (n + 1) (i ++ w)) := by
      intro i
      simp only [objMemberF_succ]
      rcases string_literal_cases i with ⟨j, k, h1⟩ | h1
      · rw [h1, string_literal_ext_ok w h1]
        simp only [pbind_ok]
        rcases wsTag_cases [':'] j with ⟨j2, h2⟩ | h2
        · rw [h2, wsTag_ext_ok hw h2]
          simp only [pbind_ok]
          have hj2str : j2.dropWhile isWsChar = j2 := wsTag_stripped h2
          cases j2 with
          | nil =>
            rw [show ((([] : Input) ++ w).dropWhile isWsChar) = ([] : Input) from by
              rw [List.nil_append]; exact dropWhile_nil_of_all hw]
            rcases jsonValueF_nil n with h3 | h3 <;> rw [h3]
            · simp only [pbind_error]
              exact ExtRes_error rfl
            · simp only [pbind_fuelOut]
              exact ExtRes_fuelOut _
          | cons c t2 =>
            have hc : isWsChar c = false := stripped_head hj2str
            rw [show (((c :: t2) ++ w).dropWhile isWsChar) = (c :: t2) ++ w from by
              rw [List.cons_append]; exact dropWhile_cons_false hc]
            have ihVj := ihV (c :: t2)
            cases h3 : jsonValueF n (c :: t2) with
            | ok i3 v =>
              rcases ihVj.1 i3 v h3 with h3' | h3' <;> rw [h3']
              · simp only [pbind_ok]
                exact ExtRes_ok_left rfl
              · simp only [pbind_ok]
                exact ExtRes_ok_strip rfl
            | error =>
              rw [ihVj.2.1 h3]
              simp only [pbind_error]
              exact ExtRes_error rfl
            | panic =>
              rw [ihVj.2.2 h3]
              simp only [pbind_panic]
              exact ExtRes_panic rfl
            | fuelOut =>
              simp only [pbind_fuelOut]
              exact ExtRes_fuelOut _
        · rw [h2, wsTag_ext_error hw (by decide) h2]
          simp only [pbind_error]
          exact ExtRes_error rfl
      · rw [h1, string_literal_ext_error hw h1]
        simp only [pbind_error]
        exact ExtRes_error rfl
    have hM : ∀ i, ExtRes w (sepMembersF (n + 1) i) (sepMembersF (n + 1) (i ++ w)) := by
      intro i
      simp only [sepMembersF_succ]
      have ihBi := ihB i
      cases h1 : objMemberF n i with
      | ok i1 m =>
        rcases ihBi.1 i1 m h1 with h1' | h1' <;> rw [h1']
        · simp only [pstep_ok]
          exact ihN i1 (i1 ++ w) (Or.inl rfl) [m]
        · simp only [pstep_ok]
          exact ihN i1 ((i1 ++ w).dropWhile isWsChar) (Or.inr rfl) [m]
      | error =>
        rw [ihBi.2.1 h1]
        simp only [pstep_error]
        exact ExtRes_ok_loose (Or.inl rfl)
      | panic =>
        rw [ihBi.2.2 h1]
        simp only [pstep_panic]
        exact ExtRes_panic rfl
      | fuelOut =>
        simp only [pstep_fuelOut]
        exact ExtRes_fuelOut _
    have hN : ∀ i i', (i' = i ++ w ∨ i' = (i ++ w).dropWhile isWsChar) → ∀ acc,
        ExtRes w (sepMembersTailF (n + 1) i acc) (sepMembersTailF (n + 1) i' acc) := by
      intro i i' hrel acc
      simp only [sepMembersTailF_succ]
      have hws : wsTag [','] i' = wsTag [','] (i ++ w) := by
        rcases hrel with rfl | rfl
        · rfl
        · exact wsTag_dropWhile [','] (i ++ w)
      rcases wsTag_cases [','] i with ⟨j, h1⟩ | h1
      · have h1' : wsTag [','] i' = .ok ((j ++ w).dropWhile isWsChar) [','] := by
          rw [hws]
          exact wsTag_ext_ok hw h1
        rw [h1, h1']
        simp only [pstep_ok]
        have hlt : j.length < i.length := wsTag_lt (by simp) h1
        have hlt' : ((j ++ w).dropWhile isWsChar).length < i'.length := wsTag_lt (by simp) h1'
        rw [if_neg (show ¬(j.length = i.length) by omega),
          if_neg (show ¬(((j ++ w).dropWhile isWsChar).length = i'.length) by omega)]
        have hjstr : j.dropWhile isWsChar = j := wsTag_stripped h1
        cases j with
        | nil =>
          rw [show ((([] : Input) ++ w).dropWhile isWsChar) = ([] : Input) from by
            rw [List.nil_append]; exact dropWhile_nil_of_all hw]
          rcases objMemberF_nil n with h2 | h2 <;> rw [h2]
          · simp only [pstep_error]
            exact ExtRes_ok_loose hrel
          · simp only [pstep_fuelOut]
            exact ExtRes_fuelOut _
        | cons c t2 =>
          have hc : isWsChar c = false := stripped_head hjstr
          rw [show (((c :: t2) ++ w).dropWhile isWsChar) = (c :: t2) ++ w from by
            rw [List.cons_append]; exact dropWhile_cons_false hc]
          have ihBj := ihB (c :: t2)
          cases h2 : objMemberF n (c :: t2) with
          | ok i2 m =>
            rcases ihBj.1 i2 m h2 with h2' | h2' <;> rw [h2']
            · simp only [pstep_ok]
              exact ihN i2 (i2 ++ w) (Or.inl rfl) (acc ++ [m])
            · simp only [pstep_ok]
              exact ihN i2 ((i2 ++ w).dropWhile isWsChar) (Or.inr rfl) (acc ++ [m])
          | error =>
            rw [ihBj.2.1 h2]
            simp only [pstep_error]
            exact ExtRes_ok_loose hrel
          | panic =>
            rw [ihBj.2.2 h2]
            simp only [pstep_panic]
            exact ExtRes_panic rfl
          | fuelOut =>
            simp only [pstep_fuelOut]
            exact ExtRes_fuelOut _
      · have h1' : wsTag [','] i' = .error := by
          rw [hws]
          exact wsTag_ext_error hw (by decide) h1
        rw [h1, h1']
        simp only [pstep_error]
        exact ExtRes_ok_loose hrel
    exact ⟨hV, hA, hO, hS, hT, hB, hM, hN⟩

end NomJson

namespace NomJson

theorem ws_char_ne {c d : Char} (hc : isWsChar c = true) (hd : isWsChar d = false) :
    c ≠ d := by
  intro e
  rw [e, hd] at hc
  cases hc

theorem jsonArrayF_strip (n : Nat) (i : Input) :
    jsonArrayF n i = jsonArrayF n (i.dropWhile isWsChar) := by
  cases n with
  | zero => rw [jsonArrayF_zero, jsonArrayF_zero]
  | succ n =>
    rw [jsonArrayF_succ, jsonArrayF_succ]
    rw [wsTag_dropWhile ['['] i]

theorem jsonObjectF_strip (n : Nat) (i : Input) :
    jsonObjectF n i = jsonObjectF n (i.dropWhile isWsChar) := by
  cases n with
  | zero => rw [jsonObjectF_zero, jsonObjectF_zero]
  | succ n =>
    rw [jsonObjectF_succ, jsonObjectF_succ]
    rw [wsTag_dropWhile braceOpen i]

theorem json_array_ws_prefix {w1 : Input} (x : Input)
    (hw1 : ∀ c ∈ w1, isWsChar c = true) : json_array (w1 ++ x) = json_array x := by
  unfold json_array
  rw [jsonArrayF_strip (4 * (w1 ++ x).length + 1) (w1 ++ x)]
  rw [dropWhile_append_of_all x hw1]
  rw [← jsonArrayF_strip (4 * (w1 ++ x).length + 1) x]
  apply jsonArrayF_stable
  simp only [List.length_append]
  omega

theorem json_object_ws_prefix {w1 : Input} (x : Input)
    (hw1 : ∀ c ∈ w1, isWsChar c = true) : json_object (w1 ++ x) = json_object x := by
  unfold json_object
  rw [jsonObjectF_strip (4 * (w1 ++ x).length + 1) (w1 ++ x)]
  rw [dropWhile_append_of_all x hw1]
  rw [← jsonObjectF_strip (4 * (w1 ++ x).length + 1) x]
  apply jsonObjectF_stable
  simp only [List.length_append]
  omega

theorem json_array_ok_shape {i r : Input} {v : Json} (h : json_array i = .ok r v) :
    ∃ vs, v = Json.array vs := by
  rw [json_array_eq] at h
  cases h1 : wsTag ['['] i with
  | ok j x =>
    rw [h1] at h
    simp only [pbind_ok] at h
    cases h2 : separated_values j with
    | ok j2 vs =>
      rw [h2] at h
      simp only [pbind_ok] at h
      cases h3 : wsTag [']'] j2 with
      | ok j3 x3 =>
        rw [h3] at h
        simp only [pbind_ok] at h
        injection h with e1 e2
        exact ⟨vs, e2.symm⟩
      | error => rw [h3] at h; cases h
      | panic => rw [h3] at h; cases h
      | fuelOut => rw [h3] at h; cases h
    | error => rw [h2] at h; cases h
    | panic => rw [h2] at h; cases h
    | fuelOut => rw [h2] at h; cases h
  | error => rw [h1] at h; cases h
  | panic => rw [h1] at h; cases h
  | fuelOut => rw [h1] at h; cases h

theorem json_object_ok_shape {i r : Input} {v : Json} (h : json_object i = .ok r v) :
    ∃ ms, v = Json.object ms := by
  rw [json_object_eq] at h
  cases h1 : wsTag braceOpen i with
  | ok j x =>
    rw [h1] at h
    simp only [pbind_ok] at h
    cases h2 : object_members j with
    | ok j2 ms =>
      rw [h2] at h
      simp only [pbind_ok] at h
      cases h3 : wsTag braceClose j2 with
      | ok j3 x3 =>
        rw [h3] at h
        simp only [pbind_ok] at h
        injection h with e1 e2
        exact ⟨ms, e2.symm⟩
      | error => rw [h3] at h; cases h
      | panic => rw [h3] at h; cases h
      | fuelOut => rw [h3] at h; cases h
    | error => rw [h2] at h; cases h
    | panic => rw [h2] at h; cases h
    | fuelOut => rw [h2] at h; cases h
  | error => rw [h1] at h; cases h
  | panic => rw [h1] at h; cases h
  | fuelOut => rw [h1] at h; cases h

theorem leadChar_append_ws {w1 : Input} (x : Input)
    (hw1 : ∀ c ∈ w1, isWsChar c = true) : leadChar (w1 ++ x) = leadChar x := by
  unfold leadChar
  rw [dropWhile_append_of_all x hw1]

/-- The four primitive recognizers all fail when the first character of
the input is whitespace. -/
theorem primitives_error_ws_head {c : Char} {t0 : Input} (hc : isWsChar c = true) :
    json_null (c :: t0) = .error ∧ json_bool (c :: t0) = .error ∧
    json_number (c :: t0) = .error ∧ json_string (c :: t0) = .error := by
  refine ⟨?_, ?_, ?_, ?_⟩
  · apply json_null_error_head
    simp only [List.head?_cons, ne_eq, Option.some.injEq]
    exact ws_char_ne hc (by decide)
  · apply json_bool_error_head
    · simp only [List.head?_cons, ne_eq, Option.some.injEq]
      exact ws_char_ne hc (by decide)
    · simp only [List.head?_cons, ne_eq, Option.some.injEq]
      exact ws_char_ne hc (by decide)
  · apply json_number_error_head
    intro d hd
    simp only [List.head?_cons, Option.some.injEq] at hd
    subst hd
    exact ws_not_digit hc
  · apply json_string_error_head
    simp only [List.head?_cons, ne_eq, Option.some.injEq]
    exact ws_char_ne hc (by decide)

/-- The value dispatcher fails on any input whose first character is
whitespace unless the first non-whitespace character opens an array or an
object. -/
theorem json_value_error_ws_head {c : Char} {t0 : Input} (hc : isWsChar c = true)
    (ha : leadChar (c :: t0) ≠ some '[') (ho : leadChar (c :: t0) ≠ some '\x7b') :
    json_value (c :: t0) = .error := by
  obtain ⟨h1, h2, h3, h4⟩ := primitives_error_ws_head hc
  rw [json_value_eq, h1, h2, h3, h4, json_array_error_lead ha, json_object_error_lead ho]
  simp

end NomJson

namespace NomJson

theorem primitives_error_of_lead {i : Input} {c0 : Char} (hlead : leadChar i = some c0)
    (hn : c0 ≠ 'n') (ht : c0 ≠ 't') (hf : c0 ≠ 'f') (hd : isDigitChar c0 = false)
    (hq : c0 ≠ '"') :
    json_null i = .error ∧ json_bool i = .error ∧
    json_number i = .error ∧ json_string i = .error := by
  cases i with
  | nil => exact ⟨rfl, rfl, rfl, rfl⟩
  | cons a t0 =>
    by_cases hws : isWsChar a = true
    · exact primitives_error_ws_head hws
    · have haf : isWsChar a = false := by simpa using hws
      have hstrip : (a :: t0).dropWhile isWsChar = a :: t0 := dropWhile_cons_false haf
      unfold leadChar at hlead
      rw [hstrip] at hlead
      simp only [List.head?_cons, Option.some.injEq] at hlead
      subst hlead
      refine ⟨?_, ?_, ?_, ?_⟩
      · apply json_null_error_head
        simp only [List.head?_cons, ne_eq, Option.some.injEq]
        exact hn
      · apply json_bool_error_head
        · simp only [List.head?_cons, ne_eq, Option.some.injEq]
          exact ht
        · simp only [List.head?_cons, ne_eq, Option.some.injEq]
          exact hf
      · apply json_number_error_head
        intro d hd2
        simp only [List.head?_cons, Option.some.injEq] at hd2
        subst hd2
        exact hd
      · apply json_string_error_head
        simp only [List.head?_cons, ne_eq, Option.some.injEq]
        exact hq

theorem doc_ws_error_of_parts {c0 : Char} {srest w1 w2 : Input} {v : Json}
    (hw1 : ∀ c ∈ w1, isWsChar c = true) (hw2 : ∀ c ∈ w2, isWsChar c = true)
    (hnb : w1 ++ w2 ≠ [])
    (hc0 : isWsChar c0 = false) (hca : c0 ≠ '[') (hco : c0 ≠ '\x7b')
    (hext : json_value ((c0 :: srest) ++ w2) = .ok w2 v) :
    json (w1 ++ (c0 :: srest) ++ w2) = .error := by
  cases w1 with
  | nil =>
    have hw2ne : w2 ≠ [] := by simpa using hnb
    simp only [List.nil_append]
    exact json_trailing hext hw2ne
  | cons c t0 =>
    have hc := hw1 c (by simp)
    rw [show (c :: t0) ++ (c0 :: srest) ++ w2 = c :: (t0 ++ ((c0 :: srest) ++ w2)) from by simp]
    have hleadtail : leadChar (t0 ++ ((c0 :: srest) ++ w2)) = some c0 := by
      rw [leadChar_append_ws _ (fun d hd => hw1 d (by simp [hd]))]
      exact leadChar_of_head hc0 rfl
    have hlead : leadChar (c :: (t0 ++ ((c0 :: srest) ++ w2))) = some c0 := by
      unfold leadChar at hleadtail ⊢
      rw [List.dropWhile_cons, if_pos hc]
      exact hleadtail
    have hv : json_value (c :: (t0 ++ ((c0 :: srest) ++ w2))) = .error := by
      apply json_value_error_ws_head hc
      · rw [hlead]
        simp only [ne_eq, Option.some.injEq]
        exact hca
      · rw [hlead]
        simp only [ne_eq, Option.some.injEq]
        exact hco
    unfold json
    rw [hv]
    rfl

theorem json_prim_ws_error {s w1 w2 : Input} {v : Json}
    (hw1 : ∀ c ∈ w1, isWsChar c = true) (hw2 : ∀ c ∈ w2, isWsChar c = true)
    (hnb : w1 ++ w2 ≠ [])
    (hval : json_value s = .ok [] v) (hprim : v.isComposite = false) :
    json (w1 ++ s ++ w2) = .error := by
  rcases json_value_arm hval with h | h | h | h | h | h
  · obtain ⟨hv0, hs⟩ := json_null_ok_dest h
    rw [List.append_nil] at hs
    subst hs
    subst hv0
    have hnul : json_null ("null".toList ++ w2) = .ok ([] ++ w2) Json.null :=
      json_null_ext_ok w2 rfl
    rw [List.nil_append] at hnul
    have hext : json_value ("null".toList ++ w2) = .ok w2 Json.null := by
      rw [json_value_eq, hnul]
      simp only [palt_ok]
    exact doc_ws_error_of_parts hw1 hw2 hnb (by decide) (by decide) (by decide) hext
  · rcases json_bool_ok_dest h with ⟨hv0, hs⟩ | ⟨hv0, hs⟩
    · rw [List.append_nil] at hs
      subst hs
      subst hv0
      have hn : json_null ("true".toList ++ w2) = .error := by
        apply json_null_error_head
        rw [show ("true".toList ++ w2).head? = some 't' from rfl]
        decide
      have hb : json_bool ("true".toList ++ w2) = .ok ([] ++ w2) (Json.bool true) :=
        json_bool_ext_ok w2 rfl
      rw [List.nil_append] at hb
      have hext : json_value ("true".toList ++ w2) = .ok w2 (Json.bool true) := by
        rw [json_value_eq, hn, hb]
        simp only [palt_error, palt_ok]
      exact doc_ws_error_of_parts hw1 hw2 hnb (by decide) (by decide) (by decide) hext
    · rw [List.append_nil] at hs
      subst hs
      subst hv0
      have hn : json_null ("false".toList ++ w2) = .error := by
        apply json_null_error_head
        rw [show ("false".toList ++ w2).head? = some 'f' from rfl]
        decide
      have hb : json_bool ("false".toList ++ w2) = .ok ([] ++ w2) (Json.bool false) :=
        json_bool_ext_ok w2 rfl
      rw [List.nil_append] at hb
      have hext : json_value ("false".toList ++ w2) = .ok w2 (Json.bool false) := by
        rw [json_value_eq, hn, hb]
        simp only [palt_error, palt_ok]
      exact doc_ws_error_of_parts hw1 hw2 hnb (by decide) (by decide) (by decide) hext
  · obtain ⟨ds, hdne, hds, hs, hv0, hfit⟩ := json_number_ok_dest h
    rw [List.append_nil] at hs
    subst hs
    subst hv0
    cases s with
    | nil => exact absurd rfl hdne
    | cons c0 ds' =>
      have hc0d : isDigitChar c0 = true := hds c0 (by simp)
      have hn : json_null ((c0 :: ds') ++ w2) = .error := by
        apply json_null_error_head
        simp only [List.cons_append, List.head?_cons, ne_eq, Option.some.injEq]
        intro e
        rw [e] at hc0d
        exact absurd hc0d (by decide)
      have hbool : json_bool ((c0 :: ds') ++ w2) = .error := by
        apply json_bool_error_head <;>
          (simp only [List.cons_append, List.head?_cons, ne_eq, Option.some.injEq]
           intro e
           rw [e] at hc0d
           exact absurd hc0d (by decide))
      have hnum : json_number ((c0 :: ds') ++ w2) =
          .ok ([] ++ w2) (Json.number (digitsVal (c0 :: ds'))) :=
        json_number_ext_ok hw2 h
      rw [List.nil_append] at hnum
      have hext : json_value ((c0 :: ds') ++ w2) =
          .ok w2 (Json.number (digitsVal (c0 :: ds'))) := by
        rw [json_value_eq, hn, hbool, hnum]
        simp only [palt_error, palt_ok]
      exact doc_ws_error_of_parts hw1 hw2 hnb (digit_not_ws hc0d)
        (fun e => by rw [e] at hc0d; exact absurd hc0d (by decide))
        (fun e => by rw [e] at hc0d; exact absurd hc0d (by decide)) hext
  · obtain ⟨mid, hv0, hsl⟩ := json_string_ok_dest h
    subst hv0
    obtain ⟨hs, hmid⟩ := string_literal_ok_iff.mp hsl
    subst hs
    have hn : json_null (('"' :: (mid ++ '"' :: [])) ++ w2) = .error := by
      apply json_null_error_head
      simp only [List.cons_append, List.head?_cons, ne_eq, Option.some.injEq]
      decide
    have hbool : json_bool (('"' :: (mid ++ '"' :: [])) ++ w2) = .error := by
      apply json_bool_error_head <;>
        (simp only [List.cons_append, List.head?_cons, ne_eq, Option.some.injEq]
         decide)
    have hnumq : json_number (('"' :: (mid ++ '"' :: [])) ++ w2) = .error := by
      apply json_number_error_head
      intro d hd
      simp only [List.cons_append, List.head?_cons, Option.some.injEq] at hd
      subst hd
      decide
    have hjs : json_string ('"' :: (mid ++ '"' :: [])) = .ok [] (Json.string mid) := by
      unfold json_string
      rw [hsl]
      rfl
    have hstr : json_string (('"' :: (mid ++ '"' :: [])) ++ w2) =
        .ok ([] ++ w2) (Json.string mid) := json_string_ext_ok w2 hjs
    rw [List.nil_append] at hstr
    have hext : json_value (('"' :: (mid ++ '"' :: [])) ++ w2) = .ok w2 (Json.string mid) := by
      rw [json_value_eq, hn, hbool, hnumq, hstr]
      simp only [palt_error, palt_ok]
    exact doc_ws_error_of_parts hw1 hw2 hnb (by decide) (by decide) (by decide) hext
  · obtain ⟨vs, rfl⟩ := json_array_ok_shape h
    simp [Json.isComposite] at hprim
  · obtain ⟨ms, rfl⟩ := json_object_ok_shape h
    simp [Json.isComposite] at hprim

theorem json_comp_ws_ok {s w1 w2 : Input} {v : Json}
    (hw1 : ∀ c ∈ w1, isWsChar c = true) (hw2 : ∀ c ∈ w2, isWsChar c = true)
    (hval : json_value s = .ok [] v) (hcomp : v.isComposite = true) :
    json (w1 ++ s ++ w2) = .ok [] v := by
  rcases json_value_arm hval with h | h | h | h | h | h
  · obtain ⟨hv0, -⟩ := json_null_ok_dest h
    subst hv0
    simp [Json.isComposite] at hcomp
  · rcases json_bool_ok_dest h with ⟨hv0, -⟩ | ⟨hv0, -⟩ <;> subst hv0 <;>
      simp [Json.isComposite] at hcomp
  · obtain ⟨ds, -, -, -, hv0, -⟩ := json_number_ok_dest h
    subst hv0
    simp [Json.isComposite] at hcomp
  · obtain ⟨mid, hv0, -⟩ := json_string_ok_dest h
    subst hv0
    simp [Json.isComposite] at hcomp
  · have h6 : json_array (s ++ w2) = .ok [] v := by
      unfold json_array at h
      have hx := ((extAll w2 hw2 (4 * s.length + 1)).2.1 s).1 [] v h
      rw [List.nil_append, dropWhile_nil_of_all hw2] at hx
      have hne2 : jsonArrayF (4 * s.length + 1) (s ++ w2) ≠ .fuelOut := by
        rw [hx]
        simp
      unfold json_array
      rw [jsonArrayF_mono (show 4 * s.length + 1 ≤ 4 * (s ++ w2).length + 1 by
        simp only [List.length_append]
        omega) hne2]
      exact hx
    have h7 : json_array (w1 ++ s ++ w2) = .ok [] v := by
      rw [List.append_assoc, json_array_ws_prefix (s ++ w2) hw1]
      exact h6
    have hlead := json_array_ok_lead h7
    obtain ⟨h1, h2, h3, h4⟩ := primitives_error_of_lead hlead (by decide) (by decide)
      (by decide) (by decide) (by decide)
    have hvext : json_value (w1 ++ s ++ w2) = .ok [] v := by
      rw [json_value_eq, h1, h2, h3, h4]
      simp only [palt_error]
      rw [h7]
      simp only [palt_ok]
    exact json_ok_iff.mpr ⟨hvext, rfl⟩
  · have h6 : json_object (s ++ w2) = .ok [] v := by
      unfold json_object at h
      have hx := ((extAll w2 hw2 (4 * s.length + 1)).2.2.1 s).1 [] v h
      rw [List.nil_append, dropWhile_nil_of_all hw2] at hx
      have hne2 : jsonObjectF (4 * s.length + 1) (s ++ w2) ≠ .fuelOut := by
        rw [hx]
        simp
      unfold json_object
      rw [jsonObjectF_mono (show 4 * s.length + 1 ≤ 4 * (s ++ w2).length + 1 by
        simp only [List.length_append]
        omega) hne2]
      exact hx
    have h7 : json_object (w1 ++ s ++ w2) = .ok [] v := by
      rw [List.append_assoc, json_object_ws_prefix (s ++ w2) hw1]
      exact h6
    have hlead := json_object_ok_lead h7
    obtain ⟨h1, h2, h3, h4⟩ := primitives_error_of_lead hlead (by decide) (by decide)
      (by decide) (by decide) (by decide)
    have harr : json_array (w1 ++ s ++ w2) = .error := by
      apply json_array_error_lead
      rw [hlead]
      decide
    have hvext : json_value (w1 ++ s ++ w2) = .ok [] v := by
      rw [json_value_eq, h1, h2, h3, h4, harr]
      simp only [palt_error]
      rw [h7]
    exact json_ok_iff.mpr ⟨hvext, rfl⟩

/-- C9: top-level whitespace tolerance is asymmetric. A document whose
root value is an array or object still parses (to the same value) when
surrounded by whitespace, because the wrappers around the brackets consume
it; a document whose root is a bare primitive fails the document-level
parse as soon as any leading or trailing whitespace surrounds it. -/
theorem claim_C9_ws_asymmetry : ∀ (s w1 w2 : Input) (v : Json),
    (∀ c ∈ w1, isWsChar c = true) → (∀ c ∈ w2, isWsChar c = true) →
    json s = .ok [] v →
    (v.isComposite = true → json (w1 ++ s ++ w2) = .ok [] v) ∧
    (v.isComposite = false → w1 ++ w2 ≠ [] → json (w1 ++ s ++ w2) = .error) := by
  intro s w1 w2 v hw1 hw2 hdoc
  have hval : json_value s = .ok [] v := (json_ok_iff.mp hdoc).1
  exact ⟨fun hcomp => json_comp_ws_ok hw1 hw2 hval hcomp,
         fun hprim hnb => json_prim_ws_error hw1 hw2 hnb hval hprim⟩

theorem claim_C9_witness :
    json (" [1] ".toList) = .ok [] (Json.array [Json.number 1]) ∧
    json (" null".toList) = .error :=
  ⟨(claim_C9_ws_asymmetry ("[1]".toList) [' '] [' '] (Json.array [Json.number 1])
      (by decide) (by decide) rfl).1 rfl,
   (claim_C9_ws_asymmetry ("null".toList) [' '] [] Json.null
      (by decide) (by decide) rfl).2 rfl (by decide)⟩

end NomJson
